import Mathlib

/-
  Verification of the resights-ownership-structure-calculator core
  (src/resights_ownership_structure_calculator/models.py) against its
  natural-language specification.

  Shallow embedding conventions:
  * Python strings are embedded as List Char.
  * Python floats are embedded as ℚ (all arithmetic in the program is
    exact on the rationals produced by the share parser).
  * Python dicts (which preserve insertion order and update values in
    place on key collision) are embedded as association lists together
    with an insertion function dictInsert with exactly those semantics.
  * Python sets of frozen pydantic models (value equality) are embedded
    as Finset over types with derived DecidableEq.
  * Raising an exception is embedded as returning none / Except.error.
-/

set_option maxRecDepth 4000
set_option linter.unusedVariables false

/-- Model of Python str.split(sep) restricted to a single-character
separator: splits on every occurrence, keeping empty segments, and
returns the one-element list containing the input when the separator
does not occur ("".split(sep) = [""]). -/
def pySplit (sep : Char) : List Char → List (List Char)
  | [] => [[]]
  | c :: rest =>
    let r := pySplit sep rest
    if c = sep then [] :: r
    else
      match r with
      | [] => [[c]]
      | h :: t => (c :: h) :: t

/-- Inverse of pySplit: re-joins segments with the separator. -/
def pyJoin (sep : Char) : List (List Char) → List Char
  | [] => []
  | [d] => d
  | d :: rest => d ++ sep :: pyJoin sep rest

/-- Decimal digit test, as used by float literal parsing. -/
def isDigitChar (c : Char) : Bool := '0' ≤ c && c ≤ '9'

def digitsVal : List Char → ℕ
  | [] => 0
  | c :: rest => (c.toNat - '0'.toNat) * 10 ^ rest.length + digitsVal rest

/-- Model of Python float() restricted to ordinary decimal literals:
an optional leading sign, then digits with at most one decimal point
and at least one digit.  (The builtin additionally accepts exponents,
inf/nan and surrounding whitespace; none of those occur in share
strings, and the claims about the parser only quantify over numeric
substrings in this sense.) -/
def pyFloatCore (t : List Char) : Option ℚ :=
  match pySplit '.' t with
  | [d] =>
    if d ≠ [] ∧ d.all isDigitChar then some (digitsVal d) else none
  | [d, f] =>
    if (d ≠ [] ∨ f ≠ []) ∧ d.all isDigitChar ∧ f.all isDigitChar then
      some ((digitsVal d : ℚ) + (digitsVal f : ℚ) / (10 ^ f.length : ℚ))
    else none
  | _ => none

def pyFloat? (s : List Char) : Option ℚ :=
  match s with
  | [] => none
  | c :: rest =>
    if c = '-' then (pyFloatCore rest).map (fun q => -q)
    else if c = '+' then pyFloatCore rest
    else pyFloatCore (c :: rest)

/-- ShareRange (models.py): a range of ownership percentages. -/
structure ShareRange where
  lower : ℚ
  average : ℚ
  upper : ℚ
deriving DecidableEq, Repr

/-- ShareRange.from_share_string (models.py lines 112-141):
  * the exact string "100%" yields (100, 100, 100);
  * a string starting with '<' has its first and last characters
    stripped and the remainder parsed as float upper, yielding
    (0, upper/2, upper);
  * otherwise a string containing '-' has its last character stripped
    and is split on '-'; exactly two float parts lower, upper yield
    (lower, (lower+upper)/2, upper);
  * anything else raises ValueError (modelled as none), as does any
    failing float conversion or a split with a number of parts other
    than two. -/
def ShareRange.from_share_string (share : List Char) : Option ShareRange :=
  if share = "100%".toList then
    some ⟨100, 100, 100⟩
  else if share.head? = some '<' then
    match pyFloat? (share.drop 1).dropLast with
    | some u => some ⟨0, u / 2, u⟩
    | none => none
  else if '-' ∈ share then
    match pySplit '-' share.dropLast with
    | [l, u] =>
      match pyFloat? l, pyFloat? u with
      | some lo, some up => some ⟨lo, (lo + up) / 2, up⟩
      | _, _ => none
    | _ => none
  else
    none

/-- OwnershipNode (models.py): an entity in the ownership structure. -/
structure OwnershipNode where
  id : String
  name : String
deriving DecidableEq, Repr

/-- OwnershipRelation (models.py): an ownership relationship between
two entities. -/
structure OwnershipRelation where
  id : String
  source : OwnershipNode
  target : OwnershipNode
  share : ShareRange
  active : Bool
  source_depth : Int
  target_depth : Int
deriving DecidableEq, Repr

/-- OwnershipRelationData (models.py): one raw input record. -/
structure OwnershipRelationData where
  id : String
  source : Int
  source_name : String
  source_depth : Int
  target : Int
  target_name : String
  target_depth : Int
  share : String
  real_lower_share : Option ℚ := none
  real_average_share : Option ℚ := none
  real_upper_share : Option ℚ := none
  active : Bool
deriving DecidableEq, Repr

/-- Python dict insertion d[k] = v: an existing key keeps its position
and gets the new value; a new key is appended. -/
def dictInsert {α : Type} (k : String) (v : α) : List (String × α) → List (String × α)
  | [] => [(k, v)]
  | (k', v') :: rest =>
    if k' = k then (k, v) :: rest else (k', v') :: dictInsert k v rest

/-- The attributes stored on a derived-graph edge by
OwnershipGraph.get_graph (models.py lines 200-211). -/
structure EdgeData where
  id : String
  lower : ℚ
  average : ℚ
  upper : ℚ
  source_depth : Int
  target_depth : Int
  active : Bool
deriving DecidableEq, Repr

/-- Model of the networkx DiGraph used by the program: vertices in
insertion order, and at most one directed edge (with attributes) per
ordered vertex pair, in insertion order. -/
structure DiGraph where
  verts : List String
  edges : List (String × String × EdgeData)
deriving DecidableEq, Repr

/-- nx add_node: appends the vertex if absent (the name attribute is
stored by the program but never read by any query, so it is dropped
here). -/
def DiGraph.addVert (G : DiGraph) (v : String) : DiGraph :=
  if v ∈ G.verts then G else { G with verts := G.verts ++ [v] }

def insertEdgeList (u v : String) (d : EdgeData) :
    List (String × String × EdgeData) → List (String × String × EdgeData)
  | [] => [(u, v, d)]
  | (u', v', d') :: rest =>
    if u' = u ∧ v' = v then (u, v, d) :: rest
    else (u', v', d') :: insertEdgeList u v d rest

/-- nx add_edge: adds missing endpoints as vertices and sets the edge
attributes, overwriting them (in place) if the ordered pair already has
an edge. -/
def DiGraph.addEdge (G : DiGraph) (u v : String) (d : EdgeData) : DiGraph :=
  { verts := ((G.addVert u).addVert v).verts
    edges := insertEdgeList u v d G.edges }

def DiGraph.successors (G : DiGraph) (u : String) : List String :=
  (G.edges.filter (fun e => e.1 = u)).map (fun e => e.2.1)

def DiGraph.predecessors (G : DiGraph) (v : String) : List String :=
  (G.edges.filter (fun e => e.2.1 = v)).map (fun e => e.1)

def DiGraph.inEdges (G : DiGraph) (v : String) : List (String × String × EdgeData) :=
  G.edges.filter (fun e => e.2.1 = v)

/-- nx get_edge_data(u, v): the attribute record of the edge u→v. -/
def DiGraph.getEdgeData? (G : DiGraph) (u v : String) : Option EdgeData :=
  (G.edges.find? (fun e => e.1 = u ∧ e.2.1 = v)).map (fun e => e.2.2)

/-- The one-step edge relation of the derived graph. -/
def DiGraph.edgeRel (G : DiGraph) (u v : String) : Prop :=
  ∃ d, (u, v, d) ∈ G.edges

/-- Well-formedness maintained by the networkx API: every edge endpoint
is a vertex. -/
def DiGraph.WF (G : DiGraph) : Prop :=
  ∀ e ∈ G.edges, e.1 ∈ G.verts ∧ e.2.1 ∈ G.verts

/-- OwnershipGraph (models.py): node registry, relation registry, and
the lazily built cached graph. -/
structure OwnershipGraph where
  nodes : List (String × OwnershipNode)
  relations : List (String × OwnershipRelation)
  graph : Option DiGraph := none
deriving DecidableEq, Repr

/-- The edge attributes written for one relation by get_graph. -/
def edgeDataOf (r : OwnershipRelation) : EdgeData :=
  ⟨r.id, r.share.lower, r.share.average, r.share.upper,
   r.source_depth, r.target_depth, r.active⟩

/-- The body of OwnershipGraph.get_graph's build phase (models.py lines
195-213): one vertex per registry node, then one edge per registry
relation, in registry order. -/
def buildGraph (nodes : List (String × OwnershipNode))
    (relations : List (String × OwnershipRelation)) : DiGraph :=
  let G0 := nodes.foldl (fun G kn => G.addVert kn.2.id) ⟨[], []⟩
  relations.foldl
    (fun G kr => G.addEdge kr.2.source.id kr.2.target.id (edgeDataOf kr.2)) G0

/-- The graph value returned by OwnershipGraph.get_graph: the cached
graph if present, else the one built from the registries. -/
def OwnershipGraph.derivedGraph (g : OwnershipGraph) : DiGraph :=
  match g.graph with
  | some G => G
  | none => buildGraph g.nodes g.relations

/-- The processed relation built from one record by from_relation_data
(models.py lines 228-241), given its successfully parsed share. -/
def relOf (d : OwnershipRelationData) (sr : ShareRange) : OwnershipRelation :=
  ⟨d.id, ⟨toString d.source, d.source_name⟩, ⟨toString d.target, d.target_name⟩,
   sr, d.active, d.source_depth, d.target_depth⟩

/-- The loop body of OwnershipGraph.from_relation_data: for each record
(in order) parse its share (propagating a parse failure), insert the
source node then the target node into the node registry, and the
relation into the relation registry. -/
def fromRelationDataGo : List OwnershipRelationData →
    List (String × OwnershipNode) → List (String × OwnershipRelation) →
    Option (List (String × OwnershipNode) × List (String × OwnershipRelation))
  | [], ns, rels => some (ns, rels)
  | d :: rest, ns, rels =>
    match ShareRange.from_share_string d.share.toList with
    | none => none
    | some sr =>
      let r := relOf d sr
      fromRelationDataGo rest
        (dictInsert r.target.id r.target (dictInsert r.source.id r.source ns))
        (dictInsert d.id r rels)

/-- OwnershipGraph.from_relation_data (models.py lines 215-247); a share
parse failure in any record propagates (none). -/
def OwnershipGraph.from_relation_data (rs : List OwnershipRelationData) :
    Option OwnershipGraph :=
  (fromRelationDataGo rs [] []).map (fun p => ⟨p.1, p.2, none⟩)

/-- Breadth-first search producing a hop-minimal path, the model of the
(bidirectional, unweighted) nx.shortest_path primitive the program
calls.  The queue holds reversed partial paths; a vertex is marked
visited when enqueued.  Fuel bounds the number of dequeues. -/
def bfsSearch (G : DiGraph) (tgt : String) :
    Nat → List (List String) → List String → Option (List String)
  | _, [], _ => none
  | 0, _ :: _, _ => none
  | fuel + 1, p :: qs, vis =>
    match p with
    | [] => none
    | v :: _ =>
      if v = tgt then some p.reverse
      else
        let ns := ((G.successors v).filter (fun w => ¬ w ∈ vis)).dedup
        bfsSearch G tgt fuel (qs ++ ns.map (fun w => w :: p)) (vis ++ ns)

/-- Model of nx.shortest_path(G, s, t) for unweighted digraphs (and,
via .isSome, of nx.has_path, which networkx implements by calling
shortest_path): none exactly when no directed path exists. -/
def DiGraph.shortestPath? (G : DiGraph) (s t : String) : Option (List String) :=
  bfsSearch G t (G.verts.length + 1) [[s]] [s]

/-- Model of nx.ancestors(G, v): all graph vertices other than v with a
directed path to v. -/
def DiGraph.ancestors (G : DiGraph) (v : String) : List String :=
  G.verts.filter (fun u => u ≠ v ∧ (G.shortestPath? u v).isSome)

/-- Error taxonomy of the path queries: nx NodeNotFound for an endpoint
absent from the graph, and the program's own ValueError ("No ownership
path between ...", the spec's NoPathError) when neither direction has a
path. -/
inductive GraphError where
  | nodeNotFound : GraphError
  | noPath : GraphError
deriving DecidableEq, Repr

/-- OwnershipGraph.get_focus_company (models.py lines 249-262): the
target of the first registry relation with target_depth == 0, none
(ValueError) when there is no such relation. -/
def OwnershipGraph.get_focus_company (g : OwnershipGraph) : Option OwnershipNode :=
  ((g.relations.map Prod.snd).find? (fun r => r.target_depth = 0)).map
    (fun r => r.target)

/-- OwnershipGraph.get_focus_company_via_graph (models.py lines
264-284): scan graph vertices in order; for the first vertex having an
incoming edge with target_depth attribute 0 and an entry in the node
registry, return that registry entry; none (ValueError) otherwise. -/
def OwnershipGraph.get_focus_company_via_graph (g : OwnershipGraph) :
    Option OwnershipNode :=
  let G := g.derivedGraph
  G.verts.findSome? (fun v =>
    if (G.inEdges v).any (fun e => e.2.2.target_depth = 0) then
      g.nodes.lookup v
    else none)

/-- OwnershipGraph.get_direct_owners (models.py lines 286-310): walk the
predecessors of the target vertex, resolve each edge's id through the
relation registry (silently skipping missing entries), and collect the
relations into a set. -/
def OwnershipGraph.get_direct_owners (g : OwnershipGraph) (target : OwnershipNode) :
    Finset OwnershipRelation :=
  let G := g.derivedGraph
  (G.predecessors target.id).foldl
    (fun acc sid =>
      match G.getEdgeData? sid target.id with
      | none => acc
      | some d =>
        match g.relations.lookup d.id with
        | none => acc
        | some r => insert r acc) ∅

/-- OwnershipGraph.get_direct_owned (models.py lines 312-334): the
symmetric query over successors of the source vertex. -/
def OwnershipGraph.get_direct_owned (g : OwnershipGraph) (source : OwnershipNode) :
    Finset OwnershipRelation :=
  let G := g.derivedGraph
  (G.successors source.id).foldl
    (fun acc tid =>
      match G.getEdgeData? source.id tid with
      | none => acc
      | some d =>
        match g.relations.lookup d.id with
        | none => acc
        | some r => insert r acc) ∅

/-- OwnershipGraph.get_all_owners (models.py lines 337-358): resolve
each vertex of nx.ancestors(graph, target.id) through the node registry
(silently skipping missing entries) and collect into a set. -/
def OwnershipGraph.get_all_owners (g : OwnershipGraph) (target : OwnershipNode) :
    Finset OwnershipNode :=
  (g.derivedGraph.ancestors target.id).foldl
    (fun acc sid =>
      match g.nodes.lookup sid with
      | none => acc
      | some owner => insert owner acc) ∅

/-- The relation-collection loop of get_ownership_path (models.py lines
423-436): for each consecutive vertex pair of the vertex path, look up
the edge data and then the registry relation, silently skipping a
missing edge or a missing registry entry. -/
def pathRelations (g : OwnershipGraph) (G : DiGraph) :
    List String → List OwnershipRelation
  | [] => []
  | [_] => []
  | u :: v :: rest =>
    let tail := pathRelations g G (v :: rest)
    match G.getEdgeData? u v with
    | none => tail
    | some d =>
      match g.relations.lookup d.id with
      | none => tail
      | some r => r :: tail

/-- OwnershipGraph.reverse_ownership_path (models.py lines 443-449):
reverse the list and replace every relation by a copy with source and
target swapped (share, active and the depth fields unchanged). -/
def OwnershipGraph.reverse_ownership_path (ownership_path : List OwnershipRelation) :
    List OwnershipRelation :=
  ownership_path.reverse.map
    (fun r => { r with source := r.target, target := r.source })

/-- OwnershipGraph.get_ownership_path (models.py lines 387-441):
NodeNotFound if either endpoint is not a graph vertex (raised by
nx.has_path); else the forward shortest path's relations if a forward
path exists; else the backward shortest path's relations reversed and
flipped if a backward path exists; else the NoPathError ValueError. -/
def OwnershipGraph.get_ownership_path (g : OwnershipGraph)
    (source_node target_node : OwnershipNode) :
    Except GraphError (List OwnershipRelation) :=
  let G := g.derivedGraph
  if source_node.id ∈ G.verts ∧ target_node.id ∈ G.verts then
    match G.shortestPath? source_node.id target_node.id with
    | some p => .ok (pathRelations g G p)
    | none =>
      match G.shortestPath? target_node.id source_node.id with
      | some p => .ok (OwnershipGraph.reverse_ownership_path (pathRelations g G p))
      | none => .error .noPath
  else .error .nodeNotFound

/-- The accumulator loop of get_real_ownership (models.py lines
374-382): three accumulators starting at 100, each multiplied by the
corresponding share bound over 100 for every relation of the path. -/
def compoundShares : List OwnershipRelation → ℚ → ℚ → ℚ → ShareRange
  | [], lower, average, upper => ⟨lower, average, upper⟩
  | r :: rest, lower, average, upper =>
    compoundShares rest (lower * (r.share.lower / 100))
      (average * (r.share.average / 100)) (upper * (r.share.upper / 100))

/-- OwnershipGraph.get_real_ownership (models.py lines 360-383): fetch
the ownership path (propagating its errors) and compound the share
bounds along it. -/
def OwnershipGraph.get_real_ownership (g : OwnershipGraph)
    (source_node target_node : OwnershipNode) : Except GraphError ShareRange :=
  (g.get_ownership_path source_node target_node).map
    (fun path => compoundShares path 100 100 100)

/-- OwnershipGraph.get_owner_by_name (models.py lines 452-467): the
first registry node with the given name, none (ValueError) if absent. -/
def OwnershipGraph.get_owner_by_name (g : OwnershipGraph) (name : String) :
    Option OwnershipNode :=
  (g.nodes.map Prod.snd).find? (fun n => n.name = name)

/-- The canonical fixture's first record: A owns 100% of B (tests/fixtures.py). -/
def recAB : OwnershipRelationData :=
  { id := "1_2", source := 1, source_name := "Company A", source_depth := 1,
    target := 2, target_name := "Company B", target_depth := 0,
    share := "100%", active := true }

/-- The canonical fixture's second record: C owns 50-67% of B. -/
def recCB : OwnershipRelationData :=
  { id := "3_2", source := 3, source_name := "Company C", source_depth := 1,
    target := 2, target_name := "Company B", target_depth := 0,
    share := "50-67%", active := true }

/-- The canonical fixture's third record: D owns <5% of C. -/
def recDC : OwnershipRelationData :=
  { id := "4_3", source := 4, source_name := "Company D", source_depth := 2,
    target := 3, target_name := "Company C", target_depth := 1,
    share := "<5%", active := true }

/-- The canonical fixture graph (tests/fixtures.py sample_relation_data). -/
def fixtureGraph : OwnershipGraph :=
  (OwnershipGraph.from_relation_data [recAB, recCB, recDC]).getD ⟨[], [], none⟩

def nodeA : OwnershipNode := ⟨"1", "Company A"⟩
def nodeB : OwnershipNode := ⟨"2", "Company B"⟩
def nodeC : OwnershipNode := ⟨"3", "Company C"⟩
def nodeD : OwnershipNode := ⟨"4", "Company D"⟩


/-! ### Stateful views of the queries (the lazy graph cache) -/

/-- OwnershipGraph.get_graph as a state transformer (models.py lines
180-213): returns the cached graph unchanged if present, otherwise
builds the graph from the registries, stores it in the cache field and
returns it. -/
def OwnershipGraph.get_graphS (g : OwnershipGraph) : DiGraph × OwnershipGraph :=
  match g.graph with
  | some G => (G, g)
  | none =>
    (buildGraph g.nodes g.relations,
     { g with graph := some (buildGraph g.nodes g.relations) })

/-- get_focus_company as a state transformer: it only scans the
relation registry and never touches the graph cache. -/
def OwnershipGraph.get_focus_companyS (g : OwnershipGraph) :
    Option OwnershipNode × OwnershipGraph :=
  (g.get_focus_company, g)

/-- get_owner_by_name as a state transformer: it only scans the node
registry and never touches the graph cache. -/
def OwnershipGraph.get_owner_by_nameS (g : OwnershipGraph) (name : String) :
    Option OwnershipNode × OwnershipGraph :=
  (g.get_owner_by_name name, g)

/-- get_direct_owners as a state transformer: its only state effect is
the get_graph cache fill. -/
def OwnershipGraph.get_direct_ownersS (g : OwnershipGraph) (target : OwnershipNode) :
    Finset OwnershipRelation × OwnershipGraph :=
  (g.get_direct_owners target, (g.get_graphS).2)

/-- get_direct_owned as a state transformer: its only state effect is
the get_graph cache fill. -/
def OwnershipGraph.get_direct_ownedS (g : OwnershipGraph) (source : OwnershipNode) :
    Finset OwnershipRelation × OwnershipGraph :=
  (g.get_direct_owned source, (g.get_graphS).2)

/-- get_all_owners as a state transformer: its only state effect is the
get_graph cache fill. -/
def OwnershipGraph.get_all_ownersS (g : OwnershipGraph) (target : OwnershipNode) :
    Finset OwnershipNode × OwnershipGraph :=
  (g.get_all_owners target, (g.get_graphS).2)

/-- get_ownership_path as a state transformer: its only state effect is
the get_graph cache fill. -/
def OwnershipGraph.get_ownership_pathS (g : OwnershipGraph)
    (s t : OwnershipNode) :
    Except GraphError (List OwnershipRelation) × OwnershipGraph :=
  (g.get_ownership_path s t, (g.get_graphS).2)

/-- get_real_ownership as a state transformer: its only state effect is
the get_graph cache fill. -/
def OwnershipGraph.get_real_ownershipS (g : OwnershipGraph)
    (s t : OwnershipNode) :
    Except GraphError ShareRange × OwnershipGraph :=
  (g.get_real_ownership s t, (g.get_graphS).2)

/-- A record whose source reuses entity id 2 under a different display
name, overwriting the node registry entry for 2. -/
def recB2C : OwnershipRelationData :=
  { id := "2_3", source := 2, source_name := "Company B2", source_depth := 0,
    target := 3, target_name := "Company C", target_depth := 1,
    share := "100%", active := true }

/-- A graph in which the focus relation's embedded target node and the
node registry's entry for the same id carry different names. -/
def overwriteGraph : OwnershipGraph :=
  (OwnershipGraph.from_relation_data [recAB, recB2C]).getD ⟨[], [], none⟩

/-- A record extending the chain with consistent names: B owns C. -/
def recBC : OwnershipRelationData :=
  { id := "2_3", source := 2, source_name := "Company B", source_depth := 0,
    target := 3, target_name := "Company C", target_depth := 1,
    share := "100%", active := true }

/-- A two-relation graph with consistent names and a unique depth-0
relation. -/
def consistentGraph : OwnershipGraph :=
  (OwnershipGraph.from_relation_data [recAB, recBC]).getD ⟨[], [], none⟩

/-- The heads of the queued partial paths. -/
def queueHeads (qs : List (List String)) : List String :=
  qs.filterMap List.head?

/-- The per-record parse-and-key step used to describe the relation
registry of a successfully built graph. -/
def relEntry? (d : OwnershipRelationData) : Option (String × OwnershipRelation) :=
  (ShareRange.from_share_string d.share.toList).map (fun sr => (d.id, relOf d sr))


/-! ### Lemmas about the string-splitting and float-parsing models -/

lemma pySplit_ne_nil (c : Char) (s : List Char) : pySplit c s ≠ [] := by
  induction s with
  | nil => simp [pySplit]
  | cons x rest ih =>
    simp only [pySplit]
    split
    · simp
    · cases h : pySplit c rest with
      | nil => exact absurd h ih
      | cons hd tl => simp [h]

lemma pyJoin_pySplit (c : Char) (s : List Char) : pyJoin c (pySplit c s) = s := by
  induction s with
  | nil => simp [pySplit, pyJoin]
  | cons x rest ih =>
    simp only [pySplit]
    by_cases hx : x = c
    · subst hx
      simp only [if_pos rfl]
      cases h : pySplit x rest with
      | nil => exact absurd h (pySplit_ne_nil x rest)
      | cons hd tl =>
        rw [h] at ih
        simp [pyJoin, ih]
    · rw [if_neg hx]
      cases h : pySplit c rest with
      | nil => exact absurd h (pySplit_ne_nil c rest)
      | cons hd tl =>
        rw [h] at ih
        cases tl with
        | nil => simp_all [pyJoin]
        | cons hd' tl' => simp_all [pyJoin]

lemma pySplit_no_sep {c : Char} {s : List Char} (h : c ∉ s) : pySplit c s = [s] := by
  induction s with
  | nil => simp [pySplit]
  | cons x rest ih =>
    simp only [List.mem_cons, not_or] at h
    have hxc : ¬ x = c := fun hx => h.1 hx.symm
    simp only [pySplit, if_neg hxc, ih h.2]

lemma pySplit_append {c : Char} {l u : List Char} (hl : c ∉ l) :
    pySplit c (l ++ c :: u) = l :: pySplit c u := by
  induction l with
  | nil => simp [pySplit]
  | cons x rest ih =>
    simp only [List.mem_cons, not_or] at hl
    have hxc : ¬ x = c := fun hx => hl.1 hx.symm
    simp only [List.cons_append, pySplit, if_neg hxc]
    simp [ih hl.2]

lemma pySplit_two {c : Char} {l u : List Char} (hl : c ∉ l) (hu : c ∉ u) :
    pySplit c (l ++ c :: u) = [l, u] := by
  rw [pySplit_append hl, pySplit_no_sep hu]

/-- A string accepted by the digits-and-point core starts with a digit
or a decimal point. -/
lemma pyFloatCore_head {s : List Char} {q : ℚ} (h : pyFloatCore s = some q) :
    ∃ hd rest, s = hd :: rest ∧ (isDigitChar hd = true ∨ hd = '.') := by
  have hj := pyJoin_pySplit '.' s
  rcases hsplit : pySplit '.' s with _ | ⟨d, _ | ⟨f, _ | _⟩⟩ <;>
    rw [hsplit] at hj <;> simp only [pyFloatCore, hsplit] at h
  · exact Option.noConfusion h
  · simp only [pyJoin] at hj
    split at h
    · rename_i hcond
      cases d with
      | nil => exact absurd rfl hcond.1
      | cons c0 d' =>
        refine ⟨c0, d', hj.symm, Or.inl ?_⟩
        have := hcond.2
        simp only [List.all_cons, Bool.and_eq_true] at this
        exact this.1
    · exact Option.noConfusion h
  · simp only [pyJoin] at hj
    split at h
    · rename_i hcond
      cases d with
      | nil => exact ⟨'.', f, by simpa using hj.symm, Or.inr rfl⟩
      | cons c0 d' =>
        refine ⟨c0, d' ++ '.' :: f, by simpa using hj.symm, Or.inl ?_⟩
        have := hcond.2.1
        simp only [List.all_cons, Bool.and_eq_true] at this
        exact this.1
    · exact Option.noConfusion h
  · exact Option.noConfusion h

lemma pyFloat?_ne_nil {s : List Char} {q : ℚ} (h : pyFloat? s = some q) : s ≠ [] := by
  intro hs
  subst hs
  simp [pyFloat?] at h

/-- A string accepted by the float model starts with a sign, a digit or
a decimal point; in particular never with the angle bracket. -/
lemma pyFloat?_head_ne_lt {s : List Char} {q : ℚ} (h : pyFloat? s = some q) :
    s.head? ≠ some '<' := by
  cases s with
  | nil => simp
  | cons x rest =>
    intro hhead
    have hx : x = '<' := by simpa using hhead
    subst hx
    simp only [pyFloat?, if_neg (by decide : ¬ ('<' = '-')),
      if_neg (by decide : ¬ ('<' = '+'))] at h
    obtain ⟨hd, rest', heq, hcase⟩ := pyFloatCore_head h
    have hhd : hd = '<' := by
      have := congrArg List.head? heq
      simpa using this.symm
    subst hhd
    rcases hcase with hdig | hdot
    · simp [isDigitChar] at hdig
    · exact absurd hdot (by decide)

/-- Branch behaviour of the share parser on a string with a leading
angle bracket and a numeric interior: the first and last characters are
stripped and the remainder becomes the upper bound. -/
lemma from_share_string_lt (t : List Char) (u : ℚ) (h : pyFloat? t = some u) :
    ShareRange.from_share_string ('<' :: (t ++ ['%'])) = some ⟨0, u / 2, u⟩ := by
  have hne : ('<' :: (t ++ ['%'])) ≠ "100%".toList := by
    rw [show "100%".toList = ['1', '0', '0', '%'] from rfl]
    intro hcontra
    exact absurd (List.cons.inj hcontra).1 (by decide)
  have hh : ('<' :: (t ++ ['%'])).head? = some '<' := rfl
  rw [ShareRange.from_share_string, if_neg hne, if_pos hh]
  have hdrop : (('<' :: (t ++ ['%'])).drop 1).dropLast = t := by
    simp
  rw [hdrop, h]

/-- Branch behaviour of the share parser on a dash-separated string
with numeric dash-free parts: the last character is stripped, the two
parts become lower and upper. -/
lemma from_share_string_range (l u : List Char) (lo up : ℚ)
    (hl : pyFloat? l = some lo) (hu : pyFloat? u = some up)
    (hln : '-' ∉ l) (hun : '-' ∉ u) :
    ShareRange.from_share_string (l ++ '-' :: (u ++ ['%'])) =
      some ⟨lo, (lo + up) / 2, up⟩ := by
  have hmem : '-' ∈ l ++ '-' :: (u ++ ['%']) :=
    List.mem_append_right _ (List.mem_cons_self _ _)
  have hne : (l ++ '-' :: (u ++ ['%'])) ≠ "100%".toList := by
    intro hcontra
    rw [hcontra] at hmem
    rw [show "100%".toList = ['1', '0', '0', '%'] from rfl] at hmem
    simp at hmem
  have hhead : (l ++ '-' :: (u ++ ['%'])).head? ≠ some '<' := by
    cases l with
    | nil => exact absurd hl (by simp [pyFloat?])
    | cons x l' =>
      have := pyFloat?_head_ne_lt hl
      simpa using this
  rw [ShareRange.from_share_string, if_neg hne, if_neg hhead, if_pos hmem]
  have hdl : (l ++ '-' :: (u ++ ['%'])).dropLast = l ++ '-' :: u := by
    have hassoc : l ++ '-' :: (u ++ ['%']) = (l ++ '-' :: u) ++ ['%'] := by simp
    rw [hassoc, List.dropLast_concat]
  rw [hdl, pySplit_two hln hun]
  show (match pyFloat? l, pyFloat? u with
        | some lo, some up => some (⟨lo, (lo + up) / 2, up⟩ : ShareRange)
        | _, _ => none) = some ⟨lo, (lo + up) / 2, up⟩
  rw [hl, hu]

/-- Branch behaviour of the share parser when none of the three guards
fires: the ValueError branch. -/
lemma from_share_string_fail (s : List Char) (h1 : s ≠ "100%".toList)
    (h2 : s.head? ≠ some '<') (h3 : '-' ∉ s) :
    ShareRange.from_share_string s = none := by
  rw [ShareRange.from_share_string, if_neg h1, if_neg h2, if_neg h3]

/-- Inversion: every successfully parsed share range has one of the
three constructor shapes. -/
lemma from_share_string_cases {s : List Char} {r : ShareRange}
    (h : ShareRange.from_share_string s = some r) :
    r = ⟨100, 100, 100⟩ ∨ (∃ u, r = ⟨0, u / 2, u⟩) ∨
      ∃ lo up, r = ⟨lo, (lo + up) / 2, up⟩ := by
  unfold ShareRange.from_share_string at h
  split_ifs at h with h1 h2 h3
  · exact Or.inl (by injection h with h; exact h.symm)
  · rcases hm : pyFloat? (s.drop 1).dropLast with _ | u
    · rw [hm] at h
      exact Option.noConfusion h
    · rw [hm] at h
      exact Or.inr (Or.inl ⟨u, by injection h with h; exact h.symm⟩)
  · rcases hsp : pySplit '-' s.dropLast with _ | ⟨l, _ | ⟨u, _ | _⟩⟩ <;> rw [hsp] at h
    · exact Option.noConfusion h
    · exact Option.noConfusion h
    · replace h : (match pyFloat? l, pyFloat? u with
          | some lo, some up => some (⟨lo, (lo + up) / 2, up⟩ : ShareRange)
          | _, _ => none) = some r := h
      rcases hml : pyFloat? l with _ | lo <;> rcases hmu : pyFloat? u with _ | up <;>
        rw [hml, hmu] at h
      · exact Option.noConfusion h
      · exact Option.noConfusion h
      · exact Option.noConfusion h
      · exact Or.inr (Or.inr ⟨lo, up, by injection h with h; exact h.symm⟩)
    · exact Option.noConfusion h

/-- C3 counterexample: the string "<5x" matches none of the claimed
forms "100%", "<U%", "L-U%" (it does not even end in the percent sign),
yet the parser accepts it, because the code strips the last character
of a leading-angle-bracket string unconditionally.  So "for every
string matching none of these forms, parse fails" is false. -/
theorem claim_C3_counterexample :
    ShareRange.from_share_string "<5x".toList = some ⟨0, 5/2, 5⟩ ∧
    "<5x".toList.getLast? ≠ some '%' :=
  ⟨by with_unfolding_all rfl, by decide⟩

/-- C3 (amended): the share parser satisfies parse("100%") =
(100,100,100); for every string "<U⋯" whose interior U (all but the
first and last characters) is numeric, parse yields (0, U/2, U) — in
particular for every "<U%" with numeric U; for every string
"L-U%" with numeric dash-free L and U, parse yields (L, (L+U)/2, U) —
in particular parse("50-67%") = (50, 58.5, 67) and parse("33-50%") =
(33, 41.5, 50); and every string that fires none of the three branch
guards — it is not "100%", does not start with '<' and contains no
'-' (such as "invalid%") — fails with ParseError.  (The original
claim's blanket failure clause for all strings outside the three
forms is refuted by claim_C3_counterexample.) -/
theorem claim_C3_amended :
    ShareRange.from_share_string "100%".toList = some ⟨100, 100, 100⟩ ∧
    (∀ t u, pyFloat? t = some u →
      ShareRange.from_share_string ('<' :: (t ++ ['%'])) = some ⟨0, u / 2, u⟩) ∧
    (∀ l u lo up, pyFloat? l = some lo → pyFloat? u = some up →
      '-' ∉ l → '-' ∉ u →
      ShareRange.from_share_string (l ++ '-' :: (u ++ ['%'])) =
        some ⟨lo, (lo + up) / 2, up⟩) ∧
    ShareRange.from_share_string "50-67%".toList = some ⟨50, 117/2, 67⟩ ∧
    ShareRange.from_share_string "33-50%".toList = some ⟨33, 83/2, 50⟩ ∧
    ShareRange.from_share_string "invalid%".toList = none ∧
    (∀ s, s ≠ "100%".toList → s.head? ≠ some '<' → '-' ∉ s →
      ShareRange.from_share_string s = none) :=
  ⟨by with_unfolding_all rfl,
   from_share_string_lt,
   from_share_string_range,
   by with_unfolding_all rfl,
   by with_unfolding_all rfl,
   by with_unfolding_all rfl,
   from_share_string_fail⟩

/-- Witness for claim_C3_amended: its universally quantified clauses
applied at the concrete inputs "<5%", "50-67%" and "invalid%". -/
theorem claim_C3_witness :
    ShareRange.from_share_string ('<' :: ("5".toList ++ ['%'])) = some ⟨0, 5 / 2, 5⟩ ∧
    ShareRange.from_share_string ("50".toList ++ '-' :: ("67".toList ++ ['%'])) =
      some ⟨50, (50 + 67) / 2, 67⟩ ∧
    ShareRange.from_share_string "invalid%".toList = none :=
  ⟨claim_C3_amended.2.1 "5".toList 5 (by with_unfolding_all rfl),
   claim_C3_amended.2.2.1 "50".toList "67".toList 50 67
     (by with_unfolding_all rfl) (by with_unfolding_all rfl)
     (by decide) (by decide),
   claim_C3_amended.2.2.2.2.2.2 "invalid%".toList (by decide) (by decide) (by decide)⟩

/-- C4 counterexample: the parser succeeds on "10-5%" with
lower = 10 > average = 7.5 > upper = 5: the code never checks the
ordering of the two range endpoints, so "lower ≤ average ≤ upper for
every successful parse" is false. -/
theorem claim_C4_counterexample :
    ShareRange.from_share_string "10-5%".toList = some ⟨10, 15/2, 5⟩ ∧
    ¬ ((10 : ℚ) ≤ 15/2) :=
  ⟨by with_unfolding_all rfl, by norm_num⟩

/-- C4 (amended): for every input string on which the share parser
succeeds and whose resulting endpoints are ordered (lower ≤ upper —
automatic for the "100%" and "<U%" branches with a nonnegative bound,
and exactly the sanity of the input range otherwise), the returned
triple satisfies lower ≤ average ≤ upper.  (The unconditional original
claim is refuted by claim_C4_counterexample, since the code never
validates the endpoint order.) -/
theorem claim_C4_amended (s : List Char) (r : ShareRange)
    (h : ShareRange.from_share_string s = some r) (hlu : r.lower ≤ r.upper) :
    r.lower ≤ r.average ∧ r.average ≤ r.upper := by
  rcases from_share_string_cases h with h1 | ⟨u, h2⟩ | ⟨lo, up, h3⟩
  · subst h1
    constructor <;> norm_num
  · subst h2
    simp only at hlu ⊢
    constructor <;> linarith
  · subst h3
    simp only at hlu ⊢
    constructor <;> linarith

/-- Witness for claim_C4_amended at the concrete input "50-67%". -/
theorem claim_C4_witness :
    ShareRange.from_share_string "50-67%".toList = some ⟨50, 117/2, 67⟩ ∧
    ((50 : ℚ) ≤ 117/2 ∧ (117/2 : ℚ) ≤ 67) :=
  ⟨by with_unfolding_all rfl,
   claim_C4_amended "50-67%".toList ⟨50, 117/2, 67⟩ (by with_unfolding_all rfl)
     (by norm_num)⟩

/-! ### Breadth-first-search correctness -/

lemma mem_successors_iff {G : DiGraph} {u w : String} :
    w ∈ G.successors u ↔ G.edgeRel u w := by
  simp only [DiGraph.successors, DiGraph.edgeRel, List.mem_map, List.mem_filter,
    decide_eq_true_eq]
  constructor
  · rintro ⟨⟨a, b, d⟩, ⟨hmem, ha⟩, hb⟩
    simp only at ha hb
    subst ha
    subst hb
    exact ⟨d, hmem⟩
  · rintro ⟨d, hmem⟩
    exact ⟨(u, w, d), ⟨hmem, rfl⟩, rfl⟩

/-- A set of vertices closed under a relation contains everything
reachable from any of its members. -/
lemma rtg_closed {α : Type} {r : α → α → Prop} {S : List α}
    (hclosed : ∀ v ∈ S, ∀ w, r v w → w ∈ S) :
    ∀ v ∈ S, ∀ t, Relation.ReflTransGen r v t → t ∈ S := by
  intro v hv t h
  induction h with
  | refl => exact hv
  | tail _ hr ih => exact hclosed _ ih _ hr

lemma length_filter_not_mem_le {α : Type} [DecidableEq α] :
    ∀ (ns l' : List α), ns.Nodup → (∀ w ∈ ns, w ∈ l') →
      (l'.filter (fun x => x ∉ ns)).length + ns.length ≤ l'.length := by
  intro ns
  induction ns with
  | nil =>
    intro l' _ _
    simp [List.length_filter_le]
  | cons a ns' ih =>
    intro l' hnd hsub
    have hcomp : l'.filter (fun x => x ∉ a :: ns') =
        (l'.filter (fun x => x ≠ a)).filter (fun x => x ∉ ns') := by
      rw [List.filter_filter]
      apply List.filter_congr
      intro x _
      by_cases hxa : x = a <;> by_cases hxns : x ∈ ns' <;>
        simp [hxa, hxns, List.mem_cons]
    have hnd' : ns'.Nodup := (List.nodup_cons.mp hnd).2
    have hamem : a ∈ l' := hsub a (List.mem_cons_self a ns')
    have hsub' : ∀ w ∈ ns', w ∈ l'.filter (fun x => x ≠ a) := by
      intro w hw
      rw [List.mem_filter]
      refine ⟨hsub w (List.mem_cons_of_mem a hw), ?_⟩
      simp only [ne_eq, decide_not, Bool.not_eq_true', decide_eq_false_iff_not]
      intro hwa
      exact (List.nodup_cons.mp hnd).1 (hwa ▸ hw)
    have hlt : (l'.filter (fun x => x ≠ a)).length < l'.length := by
      rw [List.length_filter_lt_length_iff_exists]
      exact ⟨a, hamem, by simp⟩
    have := ih (l'.filter (fun x => x ≠ a)) hnd' hsub'
    rw [hcomp]
    simp only [List.length_cons]
    omega

lemma queueHeads_append (qs qs' : List (List String)) :
    queueHeads (qs ++ qs') = queueHeads qs ++ queueHeads qs' := by
  simp [queueHeads]

lemma queueHeads_cons_of_head (v : String) (rest : List String)
    (qs : List (List String)) :
    queueHeads ((v :: rest) :: qs) = v :: queueHeads qs := by
  simp [queueHeads]

lemma queueHeads_map_cons (ns : List String) (p : List String) :
    queueHeads (ns.map (fun w => w :: p)) = ns := by
  induction ns with
  | nil => simp [queueHeads]
  | cons x ns' ih => simp [queueHeads] at ih ⊢; exact ih

/-- BFS soundness: a found path witnesses reachability of the target
from the search root, provided every queued path's head is reachable
from the root. -/
lemma bfsSearch_sound (G : DiGraph) (tgt s : String) :
    ∀ (fuel : Nat) (qs : List (List String)) (vis : List String)
      (p : List String),
    (∀ q ∈ qs, ∃ v rest, q = v :: rest ∧ Relation.ReflTransGen G.edgeRel s v) →
    bfsSearch G tgt fuel qs vis = some p →
    Relation.ReflTransGen G.edgeRel s tgt := by
  intro fuel
  induction fuel with
  | zero =>
    intro qs vis p _ hrun
    cases qs with
    | nil => simp [bfsSearch] at hrun
    | cons q qs' => simp [bfsSearch] at hrun
  | succ fuel ih =>
    intro qs vis p hinv hrun
    cases qs with
    | nil => simp [bfsSearch] at hrun
    | cons q qs' =>
      obtain ⟨v, rest, hq, hreach⟩ := hinv q (List.mem_cons_self _ _)
      subst hq
      rw [bfsSearch] at hrun
      by_cases hv : v = tgt
      · exact hv ▸ hreach
      · rw [if_neg hv] at hrun
        refine ih _ _ p ?_ hrun
        intro q' hq'
        rcases List.mem_append.mp hq' with hold | hnew
        · exact hinv q' (List.mem_cons_of_mem _ hold)
        · obtain ⟨w, hw, hq'eq⟩ := List.mem_map.mp hnew
          refine ⟨w, v :: rest, hq'eq.symm, ?_⟩
          have hwsucc : w ∈ G.successors v := by
            have := List.mem_dedup.mp hw
            exact (List.mem_filter.mp this).1
          exact Relation.ReflTransGen.tail hreach (mem_successors_iff.mp hwsucc)

/-- BFS completeness: when the search exhausts its queue (returns
none), no vertex already visited can reach the target.  The hypotheses
are the loop invariants: the visited list has no duplicates, queued
paths are nonempty with visited heads, every visited vertex no longer
in the queue has all successors visited, the target once visited stays
in the queue until dequeued, and the fuel dominates the number of
unvisited vertices plus the queue length. -/
lemma bfsSearch_complete (G : DiGraph) (tgt : String)
    (hsucc : ∀ v w, w ∈ G.successors v → w ∈ G.verts) :
    ∀ (fuel : Nat) (qs : List (List String)) (vis : List String),
    vis.Nodup →
    (∀ q ∈ qs, q ≠ []) →
    (∀ h ∈ queueHeads qs, h ∈ vis) →
    (∀ v ∈ vis, v ∉ queueHeads qs → ∀ w, w ∈ G.successors v → w ∈ vis) →
    (tgt ∈ vis → tgt ∈ queueHeads qs) →
    ((G.verts.filter (fun x => x ∉ vis)).length + qs.length ≤ fuel) →
    bfsSearch G tgt fuel qs vis = none →
    ∀ v ∈ vis, ¬ Relation.ReflTransGen G.edgeRel v tgt := by
  intro fuel
  induction fuel with
  | zero =>
    intro qs vis _ _ _ hclosed htgt hfuel _ v hv hreach
    have hqs : qs = [] := by
      cases qs with
      | nil => rfl
      | cons q qs' => simp at hfuel
    subst hqs
    have hvis_closed : ∀ x ∈ vis, ∀ w, G.edgeRel x w → w ∈ vis := by
      intro x hx w hw
      exact hclosed x hx (by simp [queueHeads]) w (mem_successors_iff.mpr hw)
    have : tgt ∈ vis := rtg_closed hvis_closed v hv tgt hreach
    have := htgt this
    simp [queueHeads] at this
  | succ fuel ih =>
    intro qs vis hnd hne hheads hclosed htgt hfuel hrun v hv hreach
    cases qs with
    | nil =>
      have hvis_closed : ∀ x ∈ vis, ∀ w, G.edgeRel x w → w ∈ vis := by
        intro x hx w hw
        exact hclosed x hx (by simp [queueHeads]) w (mem_successors_iff.mpr hw)
      have : tgt ∈ vis := rtg_closed hvis_closed v hv tgt hreach
      have := htgt this
      simp [queueHeads] at this
    | cons q qs' =>
      rcases hqshape : q with _ | ⟨v₀, rest⟩
      · exact hne q (List.mem_cons_self _ _) hqshape
      subst hqshape
      rw [bfsSearch] at hrun
      by_cases hv₀ : v₀ = tgt
      · rw [if_pos hv₀] at hrun
        exact Option.noConfusion hrun
      · rw [if_neg hv₀] at hrun
        set ns := ((G.successors v₀).filter (fun w => ¬ w ∈ vis)).dedup with hns
        have hns_nodup : ns.Nodup := List.nodup_dedup _
        have hns_fresh : ∀ w ∈ ns, w ∉ vis := by
          intro w hw
          have := List.mem_filter.mp (List.mem_dedup.mp hw)
          simpa using this.2
        have hns_succ : ∀ w ∈ ns, w ∈ G.successors v₀ := by
          intro w hw
          exact (List.mem_filter.mp (List.mem_dedup.mp hw)).1
        have hv₀mem : v₀ ∈ vis :=
          hheads v₀ (by rw [queueHeads_cons_of_head]; exact List.mem_cons_self _ _)
        have hstep : ∀ x ∈ vis ++ ns, ¬ Relation.ReflTransGen G.edgeRel x tgt := by
          refine ih (qs' ++ ns.map (fun w => w :: (v₀ :: rest))) (vis ++ ns)
            ?_ ?_ ?_ ?_ ?_ ?_ hrun
          · refine List.Nodup.append hnd hns_nodup ?_
            intro x hx hx'
            exact hns_fresh x hx' hx
          · intro q' hq'
            rcases List.mem_append.mp hq' with hold | hnew
            · exact hne q' (List.mem_cons_of_mem _ hold)
            · obtain ⟨w, _, hq'eq⟩ := List.mem_map.mp hnew
              rw [← hq'eq]
              simp
          · intro h hh
            rw [queueHeads_append, queueHeads_map_cons] at hh
            rcases List.mem_append.mp hh with hold | hnew
            · have : h ∈ queueHeads ((v₀ :: rest) :: qs') := by
                rw [queueHeads_cons_of_head]
                exact List.mem_cons_of_mem _ hold
              exact List.mem_append_left _ (hheads h this)
            · exact List.mem_append_right _ hnew
          · intro x hx hxq w hwsucc
            rw [queueHeads_append, queueHeads_map_cons] at hxq
            rcases List.mem_append.mp hx with hxvis | hxns
            · by_cases hxv₀ : x = v₀
              · subst hxv₀
                by_cases hwvis : w ∈ vis
                · exact List.mem_append_left _ hwvis
                · refine List.mem_append_right _ ?_
                  rw [hns]
                  rw [List.mem_dedup, List.mem_filter]
                  exact ⟨hwsucc, by simpa using hwvis⟩
              · have hxq' : x ∉ queueHeads ((v₀ :: rest) :: qs') := by
                  rw [queueHeads_cons_of_head]
                  intro hcontra
                  rcases List.mem_cons.mp hcontra with h1 | h2
                  · exact hxv₀ h1
                  · exact hxq (List.mem_append_left _ h2)
                exact List.mem_append_left _ (hclosed x hxvis hxq' w hwsucc)
            · exact absurd (List.mem_append_right _ hxns) hxq
          · intro hxtgt
            rw [queueHeads_append, queueHeads_map_cons]
            rcases List.mem_append.mp hxtgt with htv | htn
            · have := htgt htv
              rw [queueHeads_cons_of_head] at this
              rcases List.mem_cons.mp this with h1 | h2
              · exact absurd h1.symm hv₀
              · exact List.mem_append_left _ h2
            · exact List.mem_append_right _ htn
          · have hfresh_sub : ∀ w ∈ ns, w ∈ G.verts.filter (fun x => x ∉ vis) := by
              intro w hw
              rw [List.mem_filter]
              refine ⟨hsucc v₀ w (hns_succ w hw), by simpa using hns_fresh w hw⟩
            have hkey := length_filter_not_mem_le ns (G.verts.filter (fun x => x ∉ vis))
              hns_nodup hfresh_sub
            have hcomp : G.verts.filter (fun x => x ∉ vis ++ ns) =
                (G.verts.filter (fun x => x ∉ vis)).filter (fun x => x ∉ ns) := by
              rw [List.filter_filter]
              apply List.filter_congr
              intro x _
              by_cases hxv : x ∈ vis <;> by_cases hxn : x ∈ ns <;>
                simp [hxv, hxn, List.mem_append]
            rw [hcomp]
            simp only [List.length_append, List.length_map, List.length_cons] at hfuel ⊢
            omega
        exact hstep v (List.mem_append_left _ hv) hreach

/-- The central graph-search fact: the shortest-path model succeeds
exactly when a directed path exists (reflexive-transitive closure of
the edge relation), for well-formed graphs. -/
lemma shortestPath?_isSome_iff {G : DiGraph} (hwf : G.WF) (s t : String) :
    (G.shortestPath? s t).isSome ↔ Relation.ReflTransGen G.edgeRel s t := by
  have hsucc : ∀ v w, w ∈ G.successors v → w ∈ G.verts := by
    intro v w hw
    obtain ⟨d, hd⟩ := mem_successors_iff.mp hw
    exact (hwf _ hd).2
  constructor
  · intro hsome
    obtain ⟨p, hp⟩ := Option.isSome_iff_exists.mp hsome
    refine bfsSearch_sound G t s (G.verts.length + 1) [[s]] [s] p ?_ hp
    intro q hq
    rcases List.mem_singleton.mp hq with rfl
    exact ⟨s, [], rfl, Relation.ReflTransGen.refl⟩
  · intro hreach
    by_contra hnone
    rw [Option.not_isSome_iff_eq_none] at hnone
    refine bfsSearch_complete G t hsucc (G.verts.length + 1) [[s]] [s]
      (List.nodup_singleton s) ?_ ?_ ?_ ?_ ?_ hnone s (List.mem_singleton_self s)
      hreach
    · intro q hq
      rcases List.mem_singleton.mp hq with rfl
      simp
    · intro h hh
      simpa [queueHeads] using hh
    · intro v hv hvq
      rcases List.mem_singleton.mp hv with rfl
      exact absurd (by simp [queueHeads]) hvq
    · intro ht
      simpa [queueHeads] using ht
    · have := List.length_filter_le (fun x => x ∉ [s]) G.verts
      simpa using Nat.add_le_add_right this 1

/-! ### Well-formedness of the built graph -/

lemma mem_insertEdgeList {u v : String} {d : EdgeData}
    {l : List (String × String × EdgeData)} {e : String × String × EdgeData}
    (h : e ∈ insertEdgeList u v d l) : e = (u, v, d) ∨ e ∈ l := by
  induction l with
  | nil => simpa [insertEdgeList] using h
  | cons x rest ih =>
    obtain ⟨u', v', d'⟩ := x
    simp only [insertEdgeList] at h
    split at h
    · rcases List.mem_cons.mp h with h1 | h2
      · exact Or.inl h1
      · exact Or.inr (List.mem_cons_of_mem _ h2)
    · rcases List.mem_cons.mp h with h1 | h2
      · exact Or.inr (h1 ▸ List.mem_cons_self _ _)
      · rcases ih h2 with h3 | h4
        · exact Or.inl h3
        · exact Or.inr (List.mem_cons_of_mem _ h4)

lemma mem_addVert_verts {G : DiGraph} {v x : String} (h : x ∈ G.verts) :
    x ∈ (G.addVert v).verts := by
  unfold DiGraph.addVert
  split
  · exact h
  · exact List.mem_append_left _ h

lemma self_mem_addVert_verts (G : DiGraph) (v : String) :
    v ∈ (G.addVert v).verts := by
  unfold DiGraph.addVert
  split
  · assumption
  · exact List.mem_append_right _ (List.mem_singleton_self v)

lemma addVert_WF {G : DiGraph} (h : G.WF) (v : String) : (G.addVert v).WF := by
  intro e he
  have he' : e ∈ G.edges := by
    unfold DiGraph.addVert at he
    split at he <;> exact he
  exact ⟨mem_addVert_verts (h e he').1, mem_addVert_verts (h e he').2⟩

lemma addEdge_WF {G : DiGraph} (h : G.WF) (u v : String) (d : EdgeData) :
    (G.addEdge u v d).WF := by
  intro e he
  simp only [DiGraph.addEdge] at he
  rcases mem_insertEdgeList he with h1 | h2
  · subst h1
    exact ⟨mem_addVert_verts (self_mem_addVert_verts G u),
      self_mem_addVert_verts (G.addVert u) v⟩
  · have := h e h2
    exact ⟨mem_addVert_verts (mem_addVert_verts this.1),
      mem_addVert_verts (mem_addVert_verts this.2)⟩

lemma buildGraph_WF (nodes : List (String × OwnershipNode))
    (relations : List (String × OwnershipRelation)) :
    (buildGraph nodes relations).WF := by
  unfold buildGraph
  have h0 : ∀ (G : DiGraph) (l : List (String × OwnershipNode)), G.WF →
      (l.foldl (fun G kn => G.addVert kn.2.id) G).WF := by
    intro G l
    induction l generalizing G with
    | nil => intro h; exact h
    | cons x rest ih => intro h; exact ih _ (addVert_WF h _)
  have h1 : ∀ (G : DiGraph) (l : List (String × OwnershipRelation)), G.WF →
      (l.foldl (fun G kr =>
        G.addEdge kr.2.source.id kr.2.target.id (edgeDataOf kr.2)) G).WF := by
    intro G l
    induction l generalizing G with
    | nil => intro h; exact h
    | cons x rest ih => intro h; exact ih _ (addEdge_WF h _ _ _)
  exact h1 _ _ (h0 _ _ (fun e he => absurd he (List.not_mem_nil e)))

lemma from_relation_data_graph_none {rs : List OwnershipRelationData}
    {g : OwnershipGraph} (h : OwnershipGraph.from_relation_data rs = some g) :
    g.graph = none := by
  unfold OwnershipGraph.from_relation_data at h
  obtain ⟨p, _, hg⟩ := Option.map_eq_some'.mp h
  rw [← hg]

lemma derivedGraph_WF {g : OwnershipGraph} (h : g.graph = none) :
    g.derivedGraph.WF := by
  unfold OwnershipGraph.derivedGraph
  rw [h]
  exact buildGraph_WF g.nodes g.relations

/-! ### Claims about path finding and compounding -/

lemma compoundShares_eq_foldl :
    ∀ (path : List OwnershipRelation) (lo av up : ℚ),
    compoundShares path lo av up =
      path.foldl (fun acc r =>
        (⟨acc.lower * (r.share.lower / 100), acc.average * (r.share.average / 100),
          acc.upper * (r.share.upper / 100)⟩ : ShareRange)) ⟨lo, av, up⟩ := by
  intro path
  induction path with
  | nil => intro lo av up; simp [compoundShares]
  | cons r rest ih =>
    intro lo av up
    simp only [compoundShares, List.foldl_cons]
    exact ih _ _ _

/-- C1: whenever get_ownership_path returns a path, get_real_ownership
is exactly the fold starting from (100, 100, 100) multiplying each
bound by the relation's corresponding share bound over 100, in path
order; an empty path therefore yields exactly (100, 100, 100); and on
the canonical fixture get_real_ownership(D, B) is
(0, 2.5 * 58.5 / 100, 5 * 67 / 100). -/
theorem claim_C1 :
    (∀ (g : OwnershipGraph) (s t : OwnershipNode) (path : List OwnershipRelation),
      g.get_ownership_path s t = .ok path →
      g.get_real_ownership s t = .ok (path.foldl (fun acc r =>
        ⟨acc.lower * (r.share.lower / 100), acc.average * (r.share.average / 100),
         acc.upper * (r.share.upper / 100)⟩) ⟨100, 100, 100⟩)) ∧
    (∀ (g : OwnershipGraph) (s t : OwnershipNode),
      g.get_ownership_path s t = .ok [] →
      g.get_real_ownership s t = .ok ⟨100, 100, 100⟩) ∧
    fixtureGraph.get_real_ownership nodeD nodeB =
      .ok ⟨0, 5/2 * (117/2) / 100, 5 * 67 / 100⟩ := by
  have hmain : ∀ (g : OwnershipGraph) (s t : OwnershipNode)
      (path : List OwnershipRelation),
      g.get_ownership_path s t = .ok path →
      g.get_real_ownership s t = .ok (path.foldl (fun acc r =>
        ⟨acc.lower * (r.share.lower / 100), acc.average * (r.share.average / 100),
         acc.upper * (r.share.upper / 100)⟩) ⟨100, 100, 100⟩) := by
    intro g s t path h
    unfold OwnershipGraph.get_real_ownership
    rw [h]
    show Except.ok (compoundShares path 100 100 100) = _
    rw [compoundShares_eq_foldl]
  refine ⟨hmain, ?_, by with_unfolding_all rfl⟩
  intro g s t h
  have := hmain g s t [] h
  simpa using this

/-- Witness for the hypothesis-bearing clauses of claim_C1: the
canonical fixture's pair (D, B). -/
theorem claim_C1_witness :
    fixtureGraph.get_real_ownership nodeD nodeB =
      .ok (([⟨"4_3", nodeD, nodeC, ⟨0, 5/2, 5⟩, true, 2, 1⟩,
             ⟨"3_2", nodeC, nodeB, ⟨50, 117/2, 67⟩, true, 1, 0⟩] :
              List OwnershipRelation).foldl (fun acc r =>
        ⟨acc.lower * (r.share.lower / 100), acc.average * (r.share.average / 100),
         acc.upper * (r.share.upper / 100)⟩) ⟨100, 100, 100⟩) :=
  claim_C1.1 fixtureGraph nodeD nodeB _ (by with_unfolding_all rfl)

/-- C2: for entities present in a well-formed graph with no directed
source-to-target path but a directed target-to-source path,
get_ownership_path returns the target-to-source shortest path's
relation list reversed in list order, every relation replaced by a
copy with only the source and target fields swapped (share, active and
both depth fields untouched, as the explicit record update shows); on
the canonical fixture get_ownership_path(B, D) is the flipped reverse
of the D-to-B chain, carrying the original relations' share and active
data verbatim. -/
theorem claim_C2 :
    (∀ (g : OwnershipGraph) (s t : OwnershipNode) (p : List String),
      g.derivedGraph.WF →
      s.id ∈ g.derivedGraph.verts → t.id ∈ g.derivedGraph.verts →
      ¬ Relation.ReflTransGen g.derivedGraph.edgeRel s.id t.id →
      Relation.ReflTransGen g.derivedGraph.edgeRel t.id s.id →
      g.derivedGraph.shortestPath? t.id s.id = some p →
      g.get_ownership_path s t =
        .ok ((pathRelations g g.derivedGraph p).reverse.map
          (fun r => { r with source := r.target, target := r.source }))) ∧
    fixtureGraph.get_ownership_path nodeB nodeD =
      .ok [⟨"3_2", nodeB, nodeC, ⟨50, 117/2, 67⟩, true, 1, 0⟩,
           ⟨"4_3", nodeC, nodeD, ⟨0, 5/2, 5⟩, true, 2, 1⟩] := by
  constructor
  · intro g s t p hwf hs ht hfwd hbwd hpath
    have hnofwd : g.derivedGraph.shortestPath? s.id t.id = none := by
      rcases hcase : g.derivedGraph.shortestPath? s.id t.id with _ | q
      · rfl
      · exact absurd ((shortestPath?_isSome_iff hwf s.id t.id).mp
          (by rw [hcase]; simp)) hfwd
    unfold OwnershipGraph.get_ownership_path
    rw [if_pos ⟨hs, ht⟩, hnofwd, hpath]
    rfl
  · with_unfolding_all rfl

/-- Witness for claim_C2's universally quantified clause: the canonical
fixture's pair (B, D), whose only connecting path runs D → C → B. -/
theorem claim_C2_witness :
    fixtureGraph.get_ownership_path nodeB nodeD =
      .ok ((pathRelations fixtureGraph fixtureGraph.derivedGraph
            ["4", "3", "2"]).reverse.map
        (fun r => { r with source := r.target, target := r.source })) := by
  refine claim_C2.1 fixtureGraph nodeB nodeD ["4", "3", "2"]
    (derivedGraph_WF (by with_unfolding_all rfl)) (by decide) (by decide)
    ?_ ?_ (by with_unfolding_all rfl)
  · intro hreach
    have := (shortestPath?_isSome_iff
      (derivedGraph_WF (g := fixtureGraph) (by with_unfolding_all rfl))
      nodeB.id nodeD.id).mpr hreach
    rw [show fixtureGraph.derivedGraph.shortestPath? nodeB.id nodeD.id = none from
      by with_unfolding_all rfl] at this
    simp at this
  · exact (shortestPath?_isSome_iff
      (derivedGraph_WF (g := fixtureGraph) (by with_unfolding_all rfl))
      nodeD.id nodeB.id).mp (by rw [show fixtureGraph.derivedGraph.shortestPath?
        nodeD.id nodeB.id = some ["4", "3", "2"] from by with_unfolding_all rfl]; simp)

/-- C5: for entities both present in a well-formed (e.g. freshly built)
graph, get_ownership_path fails with the NoPathError ValueError exactly
when there is neither a directed path from x to y nor one from y to x
in the derived graph. -/
theorem claim_C5 (g : OwnershipGraph) (x y : OwnershipNode)
    (hwf : g.derivedGraph.WF)
    (hx : x.id ∈ g.derivedGraph.verts) (hy : y.id ∈ g.derivedGraph.verts) :
    g.get_ownership_path x y = .error .noPath ↔
      ¬ Relation.ReflTransGen g.derivedGraph.edgeRel x.id y.id ∧
      ¬ Relation.ReflTransGen g.derivedGraph.edgeRel y.id x.id := by
  unfold OwnershipGraph.get_ownership_path
  rw [if_pos ⟨hx, hy⟩]
  rcases hfwd : g.derivedGraph.shortestPath? x.id y.id with _ | p
  · rcases hbwd : g.derivedGraph.shortestPath? y.id x.id with _ | q
    · simp only []
      constructor
      · intro _
        constructor
        · intro hreach
          have := (shortestPath?_isSome_iff hwf x.id y.id).mpr hreach
          rw [hfwd] at this
          simp at this
        · intro hreach
          have := (shortestPath?_isSome_iff hwf y.id x.id).mpr hreach
          rw [hbwd] at this
          simp at this
      · intro _
        trivial
    · simp only []
      constructor
      · intro hcontra
        exact Except.noConfusion hcontra
      · intro ⟨_, hno⟩
        exact absurd ((shortestPath?_isSome_iff hwf y.id x.id).mp
          (by rw [hbwd]; simp)) hno
  · simp only []
    constructor
    · intro hcontra
      exact Except.noConfusion hcontra
    · intro ⟨hno, _⟩
      exact absurd ((shortestPath?_isSome_iff hwf x.id y.id).mp
        (by rw [hfwd]; simp)) hno

/-- Witness for claim_C5: a graph of two disconnected components (the
A-owns-B record plus an unrelated E-owns-F record); the query between
A and E fails with NoPathError, and the theorem converts that into the
absence of directed paths in either direction. -/
theorem claim_C5_witness :
    ¬ Relation.ReflTransGen
        (OwnershipGraph.derivedGraph
          ⟨[("1", ⟨"1", "Company A"⟩), ("2", ⟨"2", "Company B"⟩),
            ("5", ⟨"5", "Company E"⟩), ("6", ⟨"6", "Company F"⟩)],
           [("1_2", ⟨"1_2", ⟨"1", "Company A"⟩, ⟨"2", "Company B"⟩,
              ⟨100, 100, 100⟩, true, 1, 0⟩),
            ("5_6", ⟨"5_6", ⟨"5", "Company E"⟩, ⟨"6", "Company F"⟩,
              ⟨100, 100, 100⟩, true, 1, 0⟩)], none⟩).edgeRel "1" "5" ∧
    ¬ Relation.ReflTransGen
        (OwnershipGraph.derivedGraph
          ⟨[("1", ⟨"1", "Company A"⟩), ("2", ⟨"2", "Company B"⟩),
            ("5", ⟨"5", "Company E"⟩), ("6", ⟨"6", "Company F"⟩)],
           [("1_2", ⟨"1_2", ⟨"1", "Company A"⟩, ⟨"2", "Company B"⟩,
              ⟨100, 100, 100⟩, true, 1, 0⟩),
            ("5_6", ⟨"5_6", ⟨"5", "Company E"⟩, ⟨"6", "Company F"⟩,
              ⟨100, 100, 100⟩, true, 1, 0⟩)], none⟩).edgeRel "5" "1" :=
  (claim_C5 _ ⟨"1", "Company A"⟩ ⟨"5", "Company E"⟩
    (derivedGraph_WF rfl) (by decide) (by decide)).mp (by with_unfolding_all rfl)

/-! ### Characterizing the registries built by from_relation_data -/

lemma dictInsert_of_fresh {α : Type} {k : String} {l : List (String × α)} (v : α)
    (h : k ∉ l.map Prod.fst) : dictInsert k v l = l ++ [(k, v)] := by
  induction l with
  | nil => rfl
  | cons x rest ih =>
    obtain ⟨k', v'⟩ := x
    simp only [List.map_cons, List.mem_cons, not_or] at h
    have hne : ¬ k' = k := fun hx => h.1 hx.symm
    simp only [dictInsert, if_neg hne, List.cons_append]
    rw [ih h.2]

lemma mem_dictInsert {α : Type} {k : String} {v : α} {l : List (String × α)}
    {x : String × α} (h : x ∈ dictInsert k v l) : x = (k, v) ∨ x ∈ l := by
  induction l with
  | nil => simpa [dictInsert] using h
  | cons y rest ih =>
    simp only [dictInsert] at h
    split at h
    · rcases List.mem_cons.mp h with h1 | h2
      · exact Or.inl h1
      · exact Or.inr (List.mem_cons_of_mem _ h2)
    · rcases List.mem_cons.mp h with h1 | h2
      · exact Or.inr (h1 ▸ List.mem_cons_self _ _)
      · rcases ih h2 with h3 | h4
        · exact Or.inl h3
        · exact Or.inr (List.mem_cons_of_mem _ h4)

lemma fromRelationDataGo_relations_eq :
    ∀ (rs : List OwnershipRelationData) (ns : List (String × OwnershipNode))
      (rels : List (String × OwnershipRelation))
      (p : List (String × OwnershipNode) × List (String × OwnershipRelation)),
    fromRelationDataGo rs ns rels = some p →
    (∀ d ∈ rs, d.id ∉ rels.map Prod.fst) →
    (rs.map (fun d => d.id)).Nodup →
    p.2 = rels ++ rs.filterMap relEntry? := by
  intro rs
  induction rs with
  | nil =>
    intro ns rels p hgo _ _
    simp only [fromRelationDataGo] at hgo
    injection hgo with hgo
    simp [← hgo]
  | cons d rest ih =>
    intro ns rels p hgo hfresh hnd
    simp only [fromRelationDataGo] at hgo
    rcases hparse : ShareRange.from_share_string d.share.toList with _ | sr <;>
      rw [hparse] at hgo
    · exact Option.noConfusion hgo
    · have hfresh_d : d.id ∉ rels.map Prod.fst :=
        hfresh d (List.mem_cons_self _ _)
      have hins : dictInsert d.id (relOf d sr) rels = rels ++ [(d.id, relOf d sr)] :=
        dictInsert_of_fresh _ hfresh_d
      have hrest := ih _ _ p hgo ?_ ?_
      · rw [hrest, hins]
        simp only [List.filterMap_cons, relEntry?, hparse, Option.map_some',
          List.append_assoc, List.singleton_append]
      · intro d' hd'
        rw [hins, List.map_append]
        simp only [List.mem_append, not_or]
        refine ⟨hfresh d' (List.mem_cons_of_mem _ hd'), ?_⟩
        simp only [List.map_cons, List.map_nil, List.mem_singleton]
        intro hcontra
        have : d.id ∈ rest.map (fun d => d.id) := by
          rw [← hcontra]
          exact List.mem_map_of_mem _ hd'
        exact (List.nodup_cons.mp hnd).1 this
      · exact (List.nodup_cons.mp hnd).2

/-- With distinct record ids, the relation registry of a successfully
built graph is exactly the per-record entries in input order. -/
lemma from_relation_data_relations_eq {rs : List OwnershipRelationData}
    {g : OwnershipGraph} (h : OwnershipGraph.from_relation_data rs = some g)
    (hnd : (rs.map (fun d => d.id)).Nodup) :
    g.relations = rs.filterMap relEntry? := by
  unfold OwnershipGraph.from_relation_data at h
  obtain ⟨p, hgo, hg⟩ := Option.map_eq_some'.mp h
  have := fromRelationDataGo_relations_eq rs [] [] p hgo (by simp) hnd
  rw [← hg]
  simpa using this

/-- Node-registry consistency: every entry of the node registry is
keyed by its node's id (no id-uniqueness hypotheses needed). -/
lemma fromRelationDataGo_nodes_consistent :
    ∀ (rs : List OwnershipRelationData) (ns : List (String × OwnershipNode))
      (rels : List (String × OwnershipRelation))
      (p : List (String × OwnershipNode) × List (String × OwnershipRelation)),
    fromRelationDataGo rs ns rels = some p →
    (∀ kn ∈ ns, (kn : String × OwnershipNode).2.id = kn.1) →
    ∀ kn ∈ p.1, (kn : String × OwnershipNode).2.id = kn.1 := by
  intro rs
  induction rs with
  | nil =>
    intro ns rels p hgo hcons
    simp only [fromRelationDataGo] at hgo
    injection hgo with hgo
    rw [← hgo]
    exact hcons
  | cons d rest ih =>
    intro ns rels p hgo hcons
    simp only [fromRelationDataGo] at hgo
    rcases hparse : ShareRange.from_share_string d.share.toList with _ | sr <;>
      rw [hparse] at hgo
    · exact Option.noConfusion hgo
    · refine ih _ _ p hgo ?_
      intro kn hkn
      rcases mem_dictInsert hkn with h1 | h2
      · rw [h1]
      · rcases mem_dictInsert h2 with h3 | h4
        · rw [h3]
        · exact hcons kn h4

lemma from_relation_data_nodes_consistent {rs : List OwnershipRelationData}
    {g : OwnershipGraph} (h : OwnershipGraph.from_relation_data rs = some g) :
    ∀ kn ∈ g.nodes, (kn : String × OwnershipNode).2.id = kn.1 := by
  unfold OwnershipGraph.from_relation_data at h
  obtain ⟨p, hgo, hg⟩ := Option.map_eq_some'.mp h
  have := fromRelationDataGo_nodes_consistent rs [] [] p hgo (by simp)
  rw [← hg]
  simpa using this

/-! ### Generic list utilities for the query lemmas -/

lemma lookup_eq_some_of_mem {α : Type} {l : List (String × α)} {k : String} {v : α}
    (hnd : (l.map Prod.fst).Nodup) (hmem : (k, v) ∈ l) : l.lookup k = some v := by
  induction l with
  | nil => exact absurd hmem (List.not_mem_nil _)
  | cons x rest ih =>
    obtain ⟨k', v'⟩ := x
    rcases List.mem_cons.mp hmem with h1 | h2
    · injection h1 with h1a h1b
      subst h1a
      subst h1b
      simp [List.lookup]
    · have hk : k ≠ k' := by
        intro hcontra
        subst hcontra
        have : k ∈ rest.map Prod.fst := List.mem_map_of_mem _ h2
        exact (List.nodup_cons.mp hnd).1 this
      simp only [List.lookup, beq_eq_false_iff_ne.mpr hk]
      exact ih (by simpa using (List.nodup_cons.mp (by simpa using hnd)).2) h2

lemma mem_of_lookup_eq_some {α : Type} {l : List (String × α)} {k : String} {v : α}
    (h : l.lookup k = some v) : (k, v) ∈ l := by
  induction l with
  | nil => simp [List.lookup] at h
  | cons x rest ih =>
    obtain ⟨k', v'⟩ := x
    simp only [List.lookup] at h
    by_cases hk : k = k'
    · subst hk
      simp only [beq_self_eq_true] at h
      injection h with h
      exact h ▸ List.mem_cons_self _ _
    · rw [beq_eq_false_iff_ne.mpr hk] at h
      exact List.mem_cons_of_mem _ (ih h)

lemma nodup_map_key_filterMap {α β γ : Type} [DecidableEq β]
    (p : α → Option γ) (f : α → β) (key : γ → β)
    (hkey : ∀ a c, p a = some c → key c = f a) :
    ∀ l : List α, (l.map f).Nodup → ((l.filterMap p).map key).Nodup := by
  have hmem : ∀ (l : List α) (x : β), x ∈ (l.filterMap p).map key → x ∈ l.map f := by
    intro l x hx
    obtain ⟨c, hc, hcx⟩ := List.mem_map.mp hx
    obtain ⟨a, ha, hac⟩ := List.mem_filterMap.mp hc
    rw [← hcx, hkey a c hac]
    exact List.mem_map_of_mem _ ha
  intro l
  induction l with
  | nil => intro _; simp
  | cons a rest ih =>
    intro hnd
    rcases hp : p a with _ | c
    · simp only [List.filterMap_cons, hp]
      exact ih (List.nodup_cons.mp hnd).2
    · simp only [List.filterMap_cons, hp, List.map_cons, List.nodup_cons]
      refine ⟨?_, ih (List.nodup_cons.mp hnd).2⟩
      intro hcontra
      have := hmem rest (key c) hcontra
      rw [hkey a c hp] at this
      exact (List.nodup_cons.mp hnd).1 this

lemma findSome?_unique {α β : Type} (f : α → Option β) (x : α) (b : β) :
    ∀ l : List α, x ∈ l → f x = some b → (∀ y ∈ l, y ≠ x → f y = none) →
    l.findSome? f = some b := by
  intro l
  induction l with
  | nil => intro hx; exact absurd hx (List.not_mem_nil _)
  | cons y rest ih =>
    intro hx hfx hothers
    by_cases hyx : y = x
    · subst hyx
      rw [List.findSome?_cons, hfx]
    · rw [List.findSome?_cons, hothers y (List.mem_cons_self _ _) hyx]
      refine ih ?_ hfx ?_
      · rcases List.mem_cons.mp hx with h1 | h2
        · exact absurd h1.symm hyx
        · exact h2
      · intro z hz
        exact hothers z (List.mem_cons_of_mem _ hz)

/-! ### The edge list of the built graph -/

lemma insertEdgeList_of_fresh {u v : String} {d : EdgeData}
    {l : List (String × String × EdgeData)}
    (h : (u, v) ∉ l.map (fun e => (e.1, e.2.1))) :
    insertEdgeList u v d l = l ++ [(u, v, d)] := by
  induction l with
  | nil => rfl
  | cons e rest ih =>
    obtain ⟨u', v', d'⟩ := e
    simp only [List.map_cons, List.mem_cons, not_or] at h
    have hne : ¬ (u' = u ∧ v' = v) := by
      rintro ⟨h1, h2⟩
      exact h.1 (by rw [h1, h2])
    simp only [insertEdgeList, if_neg hne, List.cons_append]
    rw [ih h.2]

lemma foldl_addEdge_verts_monotone :
    ∀ (l : List (String × OwnershipRelation)) (G : DiGraph) (x : String),
    x ∈ G.verts →
    x ∈ (l.foldl (fun G kr =>
      G.addEdge kr.2.source.id kr.2.target.id (edgeDataOf kr.2)) G).verts := by
  intro l
  induction l with
  | nil => intro G x hx; exact hx
  | cons kr rest ih =>
    intro G x hx
    exact ih _ x (mem_addVert_verts (mem_addVert_verts hx))

lemma foldl_addEdge_edges :
    ∀ (l : List (String × OwnershipRelation)) (G : DiGraph),
    ((l.map (fun kr => (kr.2.source.id, kr.2.target.id))).Nodup) →
    (∀ kr ∈ l, ((kr : String × OwnershipRelation).2.source.id, kr.2.target.id) ∉
      G.edges.map (fun e => (e.1, e.2.1))) →
    (l.foldl (fun G kr =>
      G.addEdge kr.2.source.id kr.2.target.id (edgeDataOf kr.2)) G).edges =
      G.edges ++ l.map (fun kr => (kr.2.source.id, kr.2.target.id, edgeDataOf kr.2)) := by
  intro l
  induction l with
  | nil => intro G _ _; simp
  | cons kr rest ih =>
    intro G hnd hfresh
    simp only [List.foldl_cons]
    have hstep : (G.addEdge kr.2.source.id kr.2.target.id (edgeDataOf kr.2)).edges =
        G.edges ++ [(kr.2.source.id, kr.2.target.id, edgeDataOf kr.2)] := by
      simp only [DiGraph.addEdge]
      exact insertEdgeList_of_fresh (hfresh kr (List.mem_cons_self _ _))
    rw [ih _ (List.nodup_cons.mp hnd).2 ?_]
    · rw [hstep]
      simp
    · intro kr' hkr'
      rw [hstep, List.map_append]
      simp only [List.mem_append, not_or]
      refine ⟨hfresh kr' (List.mem_cons_of_mem _ hkr'), ?_⟩
      simp only [List.map_cons, List.map_nil, List.mem_singleton]
      intro hcontra
      have : (kr.2.source.id, kr.2.target.id) ∈
          rest.map (fun kr => (kr.2.source.id, kr.2.target.id)) := by
        rw [← hcontra]
        exact List.mem_map_of_mem _ hkr'
      exact (List.nodup_cons.mp hnd).1 this

lemma foldl_addVert_edges (l : List (String × OwnershipNode)) (G : DiGraph) :
    (l.foldl (fun G kn => G.addVert kn.2.id) G).edges = G.edges := by
  induction l generalizing G with
  | nil => rfl
  | cons kn rest ih =>
    simp only [List.foldl_cons]
    rw [ih]
    unfold DiGraph.addVert
    split <;> rfl

/-- With pairwise-distinct (source, target) pairs in the relation
registry, the built graph has exactly one edge per relation, in
registry order, carrying that relation's attributes. -/
lemma buildGraph_edges (nodes : List (String × OwnershipNode))
    (relations : List (String × OwnershipRelation))
    (hpairs : ((relations.map (fun kr => (kr.2.source.id, kr.2.target.id)))).Nodup) :
    (buildGraph nodes relations).edges =
      relations.map (fun kr => (kr.2.source.id, kr.2.target.id, edgeDataOf kr.2)) := by
  unfold buildGraph
  rw [foldl_addEdge_edges relations _ hpairs ?_]
  · rw [foldl_addVert_edges]
    simp
  · intro kr _
    rw [foldl_addVert_edges]
    simp

/-- With pairwise-distinct edge pairs, looking up an edge of the list
returns exactly its attributes. -/
lemma find?_edge_of_mem {u v : String} {d : EdgeData} :
    ∀ l : List (String × String × EdgeData),
    (l.map (fun e => (e.1, e.2.1))).Nodup → (u, v, d) ∈ l →
    l.find? (fun e => e.1 = u ∧ e.2.1 = v) = some (u, v, d) := by
  intro l
  induction l with
  | nil => intro _ hmem; exact absurd hmem (List.not_mem_nil _)
  | cons e rest ih =>
    intro hnd hmem
    obtain ⟨u', v', d'⟩ := e
    rcases List.mem_cons.mp hmem with h1 | h2
    · rw [← h1]
      rw [List.find?_cons_of_pos]
      simp
    · by_cases hpair : u' = u ∧ v' = v
      · exfalso
        have hin : (u, v) ∈ rest.map (fun e => (e.1, e.2.1)) := by
          refine List.mem_map.mpr ⟨(u, v, d), h2, rfl⟩
        rw [← hpair.1, ← hpair.2] at hin
        exact (List.nodup_cons.mp hnd).1 hin
      · rw [List.find?_cons_of_neg]
        · exact ih (List.nodup_cons.mp hnd).2 h2
        · simpa using hpair

/-- With pairwise-distinct edge pairs, looking up an edge of the list
returns exactly its attributes. -/
lemma getEdgeData?_of_mem {G : DiGraph} {u v : String} {d : EdgeData}
    (hnd : (G.edges.map (fun e => (e.1, e.2.1))).Nodup)
    (hmem : (u, v, d) ∈ G.edges) : G.getEdgeData? u v = some d := by
  unfold DiGraph.getEdgeData?
  rw [find?_edge_of_mem G.edges hnd hmem]
  rfl

lemma mem_predecessors_iff {G : DiGraph} {v sid : String} :
    sid ∈ G.predecessors v ↔ ∃ d, (sid, v, d) ∈ G.edges := by
  simp only [DiGraph.predecessors, List.mem_map, List.mem_filter,
    decide_eq_true_eq]
  constructor
  · rintro ⟨⟨a, b, d⟩, ⟨hmem, hb⟩, ha⟩
    simp only at ha hb
    subst ha
    subst hb
    exact ⟨d, hmem⟩
  · rintro ⟨d, hmem⟩
    exact ⟨(sid, v, d), ⟨hmem, rfl⟩, rfl⟩

lemma from_relation_data_rel_key {rs : List OwnershipRelationData}
    {g : OwnershipGraph} (h : OwnershipGraph.from_relation_data rs = some g)
    (hnd : (rs.map (fun d => d.id)).Nodup) :
    ∀ kr ∈ g.relations, (kr : String × OwnershipRelation).2.id = kr.1 := by
  intro kr hkr
  rw [from_relation_data_relations_eq h hnd] at hkr
  obtain ⟨d, _, hd⟩ := List.mem_filterMap.mp hkr
  unfold relEntry? at hd
  obtain ⟨sr, _, hsr⟩ := Option.map_eq_some'.mp hd
  rw [← hsr]
  rfl

lemma from_relation_data_keys_nodup {rs : List OwnershipRelationData}
    {g : OwnershipGraph} (h : OwnershipGraph.from_relation_data rs = some g)
    (hnd : (rs.map (fun d => d.id)).Nodup) :
    (g.relations.map Prod.fst).Nodup := by
  rw [from_relation_data_relations_eq h hnd]
  refine nodup_map_key_filterMap relEntry? (fun d => d.id) Prod.fst ?_ rs hnd
  intro d c hc
  unfold relEntry? at hc
  obtain ⟨sr, _, hsr⟩ := Option.map_eq_some'.mp hc
  rw [← hsr]

lemma from_relation_data_pairs_nodup {rs : List OwnershipRelationData}
    {g : OwnershipGraph} (h : OwnershipGraph.from_relation_data rs = some g)
    (hnd : (rs.map (fun d => d.id)).Nodup)
    (hpairs : (rs.map (fun d => (toString d.source, toString d.target))).Nodup) :
    (g.relations.map (fun kr => (kr.2.source.id, kr.2.target.id))).Nodup := by
  rw [from_relation_data_relations_eq h hnd]
  refine nodup_map_key_filterMap relEntry?
    (fun d => (toString d.source, toString d.target))
    (fun kr => (kr.2.source.id, kr.2.target.id)) ?_ rs hpairs
  intro d c hc
  unfold relEntry? at hc
  obtain ⟨sr, _, hsr⟩ := Option.map_eq_some'.mp hc
  rw [← hsr]
  rfl

/-- The central registry-vs-graph correspondence: resolving an edge's
attributes and then its relation id against the registry yields r
exactly when r is a registry relation with the queried endpoints. -/
lemma registry_query_equiv {g : OwnershipGraph} {G : DiGraph}
    (hG : G.edges = g.relations.map
      (fun kr => (kr.2.source.id, kr.2.target.id, edgeDataOf kr.2)))
    (hkeys : (g.relations.map Prod.fst).Nodup)
    (hkeyid : ∀ kr ∈ g.relations, (kr : String × OwnershipRelation).2.id = kr.1)
    (hrelpairs : (g.relations.map
      (fun kr => (kr.2.source.id, kr.2.target.id))).Nodup) :
    ∀ (sid tid : String) (r : OwnershipRelation),
    ((G.getEdgeData? sid tid).bind (fun d => g.relations.lookup d.id) = some r) ↔
      ((∃ k, (k, r) ∈ g.relations) ∧ r.source.id = sid ∧ r.target.id = tid) := by
  have hednd : (G.edges.map (fun e => (e.1, e.2.1))).Nodup := by
    rw [hG, List.map_map]
    exact hrelpairs
  intro sid tid r
  constructor
  · intro hf
    rcases hx : G.getEdgeData? sid tid with _ | d
    · rw [hx] at hf
      exact Option.noConfusion hf
    · rw [hx] at hf
      simp only [Option.some_bind] at hf
      obtain ⟨e, hfind, hed⟩ := Option.map_eq_some'.mp hx
      have hemem : e ∈ G.edges := List.mem_of_find?_eq_some hfind
      have hepred := List.find?_some hfind
      simp only [decide_eq_true_eq] at hepred
      obtain ⟨kr, hkr, hkre⟩ := List.mem_map.mp (hG ▸ hemem)
      have hd_eq : d = edgeDataOf kr.2 := by
        rw [← hed, ← hkre]
      have hdid : d.id = kr.2.id := by rw [hd_eq]; rfl
      have hlook : g.relations.lookup kr.2.id = some kr.2 := by
        refine lookup_eq_some_of_mem hkeys ?_
        rw [hkeyid kr hkr]
        simpa using hkr
      rw [hdid, hlook] at hf
      injection hf with hf
      subst hf
      refine ⟨⟨kr.1, ?_⟩, ?_, ?_⟩
      · obtain ⟨k1, k2⟩ := kr
        exact hkr
      · rw [← hkre] at hepred
        exact hepred.1
      · rw [← hkre] at hepred
        exact hepred.2
  · rintro ⟨⟨k, hkr⟩, hsrc, htgt⟩
    have hkid : r.id = k := hkeyid (k, r) hkr
    have hedge : (r.source.id, r.target.id, edgeDataOf r) ∈ G.edges := by
      rw [hG]
      exact List.mem_map.mpr ⟨(k, r), hkr, rfl⟩
    rw [hsrc, htgt] at hedge
    rw [getEdgeData?_of_mem hednd hedge]
    simp only [Option.some_bind]
    show g.relations.lookup (edgeDataOf r).id = some r
    have : (edgeDataOf r).id = r.id := rfl
    rw [this]
    refine lookup_eq_some_of_mem hkeys ?_
    rw [hkid]
    exact hkr

lemma mem_get_direct_owners_iff (g : OwnershipGraph) (t : OwnershipNode)
    (r : OwnershipRelation) :
    r ∈ g.get_direct_owners t ↔
      ∃ sid ∈ g.derivedGraph.predecessors t.id, ∃ d,
        g.derivedGraph.getEdgeData? sid t.id = some d ∧
        g.relations.lookup d.id = some r := by
  have haux : ∀ (l : List String) (acc : Finset OwnershipRelation),
      (r ∈ l.foldl (fun acc sid =>
        match g.derivedGraph.getEdgeData? sid t.id with
        | none => acc
        | some d =>
          match g.relations.lookup d.id with
          | none => acc
          | some v => insert v acc) acc) ↔
      (r ∈ acc ∨ ∃ sid ∈ l, ∃ d, g.derivedGraph.getEdgeData? sid t.id = some d ∧
        g.relations.lookup d.id = some r) := by
    intro l
    induction l with
    | nil => intro acc; simp
    | cons sid rest ih =>
      intro acc
      rcases hx : g.derivedGraph.getEdgeData? sid t.id with _ | d
      · simp only [List.foldl_cons, hx]
        rw [ih acc]
        constructor
        · rintro (h1 | ⟨s, hs, hd⟩)
          · exact Or.inl h1
          · exact Or.inr ⟨s, List.mem_cons_of_mem _ hs, hd⟩
        · rintro (h1 | ⟨s, hs, d, hd1, hd2⟩)
          · exact Or.inl h1
          · rcases List.mem_cons.mp hs with h2 | h3
            · rw [h2] at hd1
              rw [hd1] at hx
              exact Option.noConfusion hx
            · exact Or.inr ⟨s, h3, d, hd1, hd2⟩
      · rcases hy : g.relations.lookup d.id with _ | v
        · simp only [List.foldl_cons, hx, hy]
          rw [ih acc]
          constructor
          · rintro (h1 | ⟨s, hs, hd⟩)
            · exact Or.inl h1
            · exact Or.inr ⟨s, List.mem_cons_of_mem _ hs, hd⟩
          · rintro (h1 | ⟨s, hs, d', hd1, hd2⟩)
            · exact Or.inl h1
            · rcases List.mem_cons.mp hs with h2 | h3
              · rw [h2] at hd1
                rw [hd1] at hx
                injection hx with hx
                rw [hx] at hd2
                rw [hd2] at hy
                exact Option.noConfusion hy
              · exact Or.inr ⟨s, h3, d', hd1, hd2⟩
        · simp only [List.foldl_cons, hx, hy]
          rw [ih (insert v acc)]
          constructor
          · rintro (h1 | ⟨s, hs, hd⟩)
            · rcases Finset.mem_insert.mp h1 with h2 | h3
              · exact Or.inr ⟨sid, List.mem_cons_self _ _, d, hx, h2 ▸ hy⟩
              · exact Or.inl h3
            · exact Or.inr ⟨s, List.mem_cons_of_mem _ hs, hd⟩
          · rintro (h1 | ⟨s, hs, d', hd1, hd2⟩)
            · exact Or.inl (Finset.mem_insert_of_mem h1)
            · rcases List.mem_cons.mp hs with h2 | h3
              · rw [h2] at hd1
                rw [hd1] at hx
                injection hx with hx
                rw [hx] at hd2
                rw [hd2] at hy
                injection hy with hy
                exact Or.inl (Finset.mem_insert.mpr (Or.inl hy))
              · exact Or.inr ⟨s, h3, d', hd1, hd2⟩
  have := haux (g.derivedGraph.predecessors t.id) ∅
  simp only [Finset.not_mem_empty, false_or] at this
  exact this

lemma mem_get_direct_owned_iff (g : OwnershipGraph) (s : OwnershipNode)
    (r : OwnershipRelation) :
    r ∈ g.get_direct_owned s ↔
      ∃ tid ∈ g.derivedGraph.successors s.id, ∃ d,
        g.derivedGraph.getEdgeData? s.id tid = some d ∧
        g.relations.lookup d.id = some r := by
  have haux : ∀ (l : List String) (acc : Finset OwnershipRelation),
      (r ∈ l.foldl (fun acc tid =>
        match g.derivedGraph.getEdgeData? s.id tid with
        | none => acc
        | some d =>
          match g.relations.lookup d.id with
          | none => acc
          | some v => insert v acc) acc) ↔
      (r ∈ acc ∨ ∃ tid ∈ l, ∃ d, g.derivedGraph.getEdgeData? s.id tid = some d ∧
        g.relations.lookup d.id = some r) := by
    intro l
    induction l with
    | nil => intro acc; simp
    | cons tid rest ih =>
      intro acc
      rcases hx : g.derivedGraph.getEdgeData? s.id tid with _ | d
      · simp only [List.foldl_cons, hx]
        rw [ih acc]
        constructor
        · rintro (h1 | ⟨w, hw, hd⟩)
          · exact Or.inl h1
          · exact Or.inr ⟨w, List.mem_cons_of_mem _ hw, hd⟩
        · rintro (h1 | ⟨w, hw, d, hd1, hd2⟩)
          · exact Or.inl h1
          · rcases List.mem_cons.mp hw with h2 | h3
            · rw [h2] at hd1
              rw [hd1] at hx
              exact Option.noConfusion hx
            · exact Or.inr ⟨w, h3, d, hd1, hd2⟩
      · rcases hy : g.relations.lookup d.id with _ | v
        · simp only [List.foldl_cons, hx, hy]
          rw [ih acc]
          constructor
          · rintro (h1 | ⟨w, hw, hd⟩)
            · exact Or.inl h1
            · exact Or.inr ⟨w, List.mem_cons_of_mem _ hw, hd⟩
          · rintro (h1 | ⟨w, hw, d', hd1, hd2⟩)
            · exact Or.inl h1
            · rcases List.mem_cons.mp hw with h2 | h3
              · rw [h2] at hd1
                rw [hd1] at hx
                injection hx with hx
                rw [hx] at hd2
                rw [hd2] at hy
                exact Option.noConfusion hy
              · exact Or.inr ⟨w, h3, d', hd1, hd2⟩
        · simp only [List.foldl_cons, hx, hy]
          rw [ih (insert v acc)]
          constructor
          · rintro (h1 | ⟨w, hw, hd⟩)
            · rcases Finset.mem_insert.mp h1 with h2 | h3
              · exact Or.inr ⟨tid, List.mem_cons_self _ _, d, hx, h2 ▸ hy⟩
              · exact Or.inl h3
            · exact Or.inr ⟨w, List.mem_cons_of_mem _ hw, hd⟩
          · rintro (h1 | ⟨w, hw, d', hd1, hd2⟩)
            · exact Or.inl (Finset.mem_insert_of_mem h1)
            · rcases List.mem_cons.mp hw with h2 | h3
              · rw [h2] at hd1
                rw [hd1] at hx
                injection hx with hx
                rw [hx] at hd2
                rw [hd2] at hy
                injection hy with hy
                exact Or.inl (Finset.mem_insert.mpr (Or.inl hy))
              · exact Or.inr ⟨w, h3, d', hd1, hd2⟩
  have := haux (g.derivedGraph.successors s.id) ∅
  simp only [Finset.not_mem_empty, false_or] at this
  exact this

lemma mem_get_all_owners_iff (g : OwnershipGraph) (t : OwnershipNode)
    (n : OwnershipNode) :
    n ∈ g.get_all_owners t ↔
      ∃ sid ∈ g.derivedGraph.ancestors t.id, g.nodes.lookup sid = some n := by
  have haux : ∀ (l : List String) (acc : Finset OwnershipNode),
      (n ∈ l.foldl (fun acc sid =>
        match g.nodes.lookup sid with
        | none => acc
        | some owner => insert owner acc) acc) ↔
      (n ∈ acc ∨ ∃ sid ∈ l, g.nodes.lookup sid = some n) := by
    intro l
    induction l with
    | nil => intro acc; simp
    | cons sid rest ih =>
      intro acc
      rcases hx : g.nodes.lookup sid with _ | owner
      · simp only [List.foldl_cons, hx]
        rw [ih acc]
        constructor
        · rintro (h1 | ⟨w, hw, hd⟩)
          · exact Or.inl h1
          · exact Or.inr ⟨w, List.mem_cons_of_mem _ hw, hd⟩
        · rintro (h1 | ⟨w, hw, hd⟩)
          · exact Or.inl h1
          · rcases List.mem_cons.mp hw with h2 | h3
            · rw [h2] at hd
              rw [hd] at hx
              exact Option.noConfusion hx
            · exact Or.inr ⟨w, h3, hd⟩
      · simp only [List.foldl_cons, hx]
        rw [ih (insert owner acc)]
        constructor
        · rintro (h1 | ⟨w, hw, hd⟩)
          · rcases Finset.mem_insert.mp h1 with h2 | h3
            · exact Or.inr ⟨sid, List.mem_cons_self _ _, h2 ▸ hx⟩
            · exact Or.inl h3
          · exact Or.inr ⟨w, List.mem_cons_of_mem _ hw, hd⟩
        · rintro (h1 | ⟨w, hw, hd⟩)
          · exact Or.inl (Finset.mem_insert_of_mem h1)
          · rcases List.mem_cons.mp hw with h2 | h3
            · rw [h2] at hd
              rw [hd] at hx
              injection hx with hx
              exact Or.inl (Finset.mem_insert.mpr (Or.inl hx))
            · exact Or.inr ⟨w, h3, hd⟩
  have := haux (g.derivedGraph.ancestors t.id) ∅
  simp only [Finset.not_mem_empty, false_or] at this
  exact this

/-- C7: for a graph built from records with pairwise-distinct relation
ids and pairwise-distinct ordered (source, target) pairs, and an entity
t present in the graph, get_direct_owners(t) contains exactly the
registry relations whose target has id t.id, and get_direct_owned(t)
exactly those whose source has id t.id. -/
theorem claim_C7 (rs : List OwnershipRelationData) (g : OwnershipGraph)
    (hg : OwnershipGraph.from_relation_data rs = some g)
    (hids : (rs.map (fun d => d.id)).Nodup)
    (hpairs : (rs.map (fun d => (toString d.source, toString d.target))).Nodup)
    (t : OwnershipNode) (ht : t.id ∈ g.derivedGraph.verts) (r : OwnershipRelation) :
    (r ∈ g.get_direct_owners t ↔
      (∃ k, (k, r) ∈ g.relations) ∧ r.target.id = t.id) ∧
    (r ∈ g.get_direct_owned t ↔
      (∃ k, (k, r) ∈ g.relations) ∧ r.source.id = t.id) := by
  have hclean : g.graph = none := from_relation_data_graph_none hg
  have hGdef : g.derivedGraph = buildGraph g.nodes g.relations := by
    unfold OwnershipGraph.derivedGraph
    rw [hclean]
  have hrelpairs := from_relation_data_pairs_nodup hg hids hpairs
  have hkeys := from_relation_data_keys_nodup hg hids
  have hkeyid := from_relation_data_rel_key hg hids
  have hG : g.derivedGraph.edges = g.relations.map
      (fun kr => (kr.2.source.id, kr.2.target.id, edgeDataOf kr.2)) := by
    rw [hGdef]
    exact buildGraph_edges g.nodes g.relations hrelpairs
  have hequiv := registry_query_equiv hG hkeys hkeyid hrelpairs
  constructor
  · rw [mem_get_direct_owners_iff]
    constructor
    · rintro ⟨sid, _, d, hd1, hd2⟩
      have := (hequiv sid t.id r).mp (Option.bind_eq_some.mpr ⟨d, hd1, hd2⟩)
      exact ⟨this.1, this.2.2⟩
    · rintro ⟨hreg, htgt⟩
      have hf := (hequiv r.source.id t.id r).mpr ⟨hreg, rfl, htgt⟩
      obtain ⟨d, hd1, hd2⟩ := Option.bind_eq_some.mp hf
      refine ⟨r.source.id, ?_, d, hd1, hd2⟩
      rw [mem_predecessors_iff]
      obtain ⟨k, hkr⟩ := hreg
      refine ⟨edgeDataOf r, ?_⟩
      rw [hG, ← htgt]
      exact List.mem_map.mpr ⟨(k, r), hkr, rfl⟩
  · rw [mem_get_direct_owned_iff]
    constructor
    · rintro ⟨tid, _, d, hd1, hd2⟩
      have := (hequiv t.id tid r).mp (Option.bind_eq_some.mpr ⟨d, hd1, hd2⟩)
      exact ⟨this.1, this.2.1⟩
    · rintro ⟨hreg, hsrc⟩
      have hf := (hequiv t.id r.target.id r).mpr ⟨hreg, hsrc, rfl⟩
      obtain ⟨d, hd1, hd2⟩ := Option.bind_eq_some.mp hf
      refine ⟨r.target.id, ?_, d, hd1, hd2⟩
      rw [mem_successors_iff]
      obtain ⟨k, hkr⟩ := hreg
      refine ⟨edgeDataOf r, ?_⟩
      rw [hG, ← hsrc]
      exact List.mem_map.mpr ⟨(k, r), hkr, rfl⟩

/-- Witness for claim_C7 at the canonical fixture: C owns 50-67% of the
focus company B, and that relation is reported as a direct owner. -/
theorem claim_C7_witness :
    (⟨"3_2", nodeC, nodeB, ⟨50, 117/2, 67⟩, true, 1, 0⟩ : OwnershipRelation) ∈
      fixtureGraph.get_direct_owners nodeB :=
  ((claim_C7 [recAB, recCB, recDC] fixtureGraph (by with_unfolding_all rfl)
    (by decide) (by decide) nodeB (by decide)
    ⟨"3_2", nodeC, nodeB, ⟨50, 117/2, 67⟩, true, 1, 0⟩).1).mpr
    ⟨⟨"3_2", by with_unfolding_all decide⟩, rfl⟩

lemma mem_ancestors_iff {G : DiGraph} (hwf : G.WF) {u v : String} :
    u ∈ G.ancestors v ↔
      u ∈ G.verts ∧ u ≠ v ∧ Relation.ReflTransGen G.edgeRel u v := by
  unfold DiGraph.ancestors
  rw [List.mem_filter]
  simp only [decide_eq_true_eq]
  constructor
  · rintro ⟨h1, h2, h3⟩
    exact ⟨h1, h2, (shortestPath?_isSome_iff hwf u v).mp h3⟩
  · rintro ⟨h1, h2, h3⟩
    exact ⟨h1, h2, (shortestPath?_isSome_iff hwf u v).mpr h3⟩

/-- C6: for a graph built from records and an entity t present in it,
get_all_owners(t) contains exactly the registry entities other than t
with a directed path to t in the derived graph (the ancestors /
transitive closure of the direct-ownership edge relation, ReflTransGen
together with the n ≠ t side condition); on the canonical fixture
get_all_owners(B) = {A, C, D}. -/
theorem claim_C6 :
    (∀ (rs : List OwnershipRelationData) (g : OwnershipGraph) (t n : OwnershipNode),
      OwnershipGraph.from_relation_data rs = some g →
      t.id ∈ g.derivedGraph.verts →
      (n ∈ g.get_all_owners t ↔
        g.nodes.lookup n.id = some n ∧ n.id ≠ t.id ∧
        Relation.ReflTransGen g.derivedGraph.edgeRel n.id t.id)) ∧
    fixtureGraph.get_all_owners nodeB = {nodeA, nodeC, nodeD} := by
  constructor
  · intro rs g t n hg ht
    have hclean : g.graph = none := from_relation_data_graph_none hg
    have hwf : g.derivedGraph.WF := derivedGraph_WF hclean
    have hcons := from_relation_data_nodes_consistent hg
    rw [mem_get_all_owners_iff]
    constructor
    · rintro ⟨sid, hanc, hlook⟩
      have hmem := mem_of_lookup_eq_some hlook
      have hid : n.id = sid := hcons (sid, n) hmem
      obtain ⟨_, hne, hreach⟩ := (mem_ancestors_iff hwf).mp hanc
      rw [← hid] at hne hreach
      exact ⟨hid ▸ hlook, hne, hreach⟩
    · rintro ⟨hlook, hne, hreach⟩
      refine ⟨n.id, ?_, hlook⟩
      rw [mem_ancestors_iff hwf]
      refine ⟨?_, hne, hreach⟩
      rcases (Relation.ReflTransGen.cases_head hreach) with h1 | ⟨w, hw, _⟩
      · exact absurd h1 hne
      · obtain ⟨d, hd⟩ := hw
        exact (hwf _ hd).1
  · exact of_decide_eq_true (by with_unfolding_all rfl)

/-- Witness for claim_C6's quantified clause: on the canonical fixture,
C is an indirect-or-direct owner of the focus company B, so the theorem
yields its registry entry and a directed path C to B. -/
theorem claim_C6_witness :
    fixtureGraph.nodes.lookup nodeC.id = some nodeC ∧ nodeC.id ≠ nodeB.id ∧
    Relation.ReflTransGen fixtureGraph.derivedGraph.edgeRel nodeC.id nodeB.id :=
  (claim_C6.1 [recAB, recCB, recDC] fixtureGraph nodeB nodeC
    (by with_unfolding_all rfl) (by decide)).mp
    (of_decide_eq_true (by with_unfolding_all rfl))

/-! ### Focus resolution and state effects -/

lemma find?_first {α : Type} (p : α → Bool) :
    ∀ (l1 : List α) (r : α) (l2 : List α), p r = true →
    (∀ r' ∈ l1, p r' = false) → List.find? p (l1 ++ r :: l2) = some r := by
  intro l1
  induction l1 with
  | nil =>
    intro r l2 hp _
    rw [List.nil_append, List.find?_cons_of_pos _ hp]
  | cons x rest ih =>
    intro r l2 hp hfail
    rw [List.cons_append,
      List.find?_cons_of_neg _ (by simpa using hfail x (List.mem_cons_self _ _))]
    exact ih r l2 hp (fun r' hr' => hfail r' (List.mem_cons_of_mem _ hr'))

/-- C8: get_focus_company fails exactly when no registry relation has
target_depth 0; when the registry value list splits as l1 ++ r :: l2
with r the first relation of depth 0, the result is r's target (scan
in registry insertion order); in particular a value-unique depth-0
relation's target is returned. -/
theorem claim_C8 (g : OwnershipGraph) :
    (g.get_focus_company = none ↔
      ∀ r ∈ g.relations.map Prod.snd, r.target_depth ≠ 0) ∧
    (∀ (l1 : List OwnershipRelation) (r : OwnershipRelation)
       (l2 : List OwnershipRelation),
      g.relations.map Prod.snd = l1 ++ r :: l2 → r.target_depth = 0 →
      (∀ r' ∈ l1, r'.target_depth ≠ 0) →
      g.get_focus_company = some r.target) ∧
    (∀ r : OwnershipRelation, r ∈ g.relations.map Prod.snd → r.target_depth = 0 →
      (∀ r' ∈ g.relations.map Prod.snd, r'.target_depth = 0 → r' = r) →
      g.get_focus_company = some r.target) := by
  refine ⟨?_, ?_, ?_⟩
  · unfold OwnershipGraph.get_focus_company
    constructor
    · intro h r hr
      rcases hf : (g.relations.map Prod.snd).find? (fun r => r.target_depth = 0)
        with _ | r'
      · have := List.find?_eq_none.mp hf r hr
        simpa using this
      · rw [hf] at h
        exact Option.noConfusion h
    · intro h
      rw [List.find?_eq_none.mpr (fun x hx => by simpa using h x hx)]
      rfl
  · intro l1 r l2 hsplit hdepth hfail
    unfold OwnershipGraph.get_focus_company
    rw [hsplit, find?_first _ l1 r l2 (by simpa using hdepth)
      (fun r' hr' => by simpa using hfail r' hr')]
    rfl
  · intro r hr hdepth huniq
    unfold OwnershipGraph.get_focus_company
    rcases hf : (g.relations.map Prod.snd).find? (fun r => r.target_depth = 0)
      with _ | r'
    · exact absurd (by simpa using hdepth)
        (by simpa using List.find?_eq_none.mp hf r hr)
    · have hmem := List.mem_of_find?_eq_some hf
      have hp := List.find?_some hf
      have hrr : r' = r := huniq r' hmem (by simpa using hp)
      rw [hf, hrr]
      rfl

/-- Witness for claim_C8 at the canonical fixture: the A-owns-B
relation is the first (and depth-unique up to position) relation with
target_depth 0, so the focus company is B. -/
theorem claim_C8_witness :
    fixtureGraph.get_focus_company =
      some (⟨"1_2", nodeA, nodeB, ⟨100, 100, 100⟩, true, 1, 0⟩ :
        OwnershipRelation).target :=
  (claim_C8 fixtureGraph).2.1 []
    ⟨"1_2", nodeA, nodeB, ⟨100, 100, 100⟩, true, 1, 0⟩
    [⟨"3_2", nodeC, nodeB, ⟨50, 117/2, 67⟩, true, 1, 0⟩,
     ⟨"4_3", nodeD, nodeC, ⟨0, 5/2, 5⟩, true, 2, 1⟩]
    (by with_unfolding_all rfl) rfl (by simp)

/-- C9: every query operation leaves the node registry and the relation
registry unchanged, and the derived graph is built at most once: after
one call to get_graph, a second call returns the identical graph and
leaves the whole state unchanged (the cache holds exactly the returned
graph). -/
theorem claim_C9 :
    (∀ g : OwnershipGraph,
      OwnershipGraph.get_graphS (g.get_graphS).2 = g.get_graphS ∧
      (g.get_graphS).2.graph = some (g.get_graphS).1 ∧
      (g.get_graphS).2.nodes = g.nodes ∧
      (g.get_graphS).2.relations = g.relations) ∧
    (∀ g : OwnershipGraph,
      (g.get_focus_companyS).2.nodes = g.nodes ∧
      (g.get_focus_companyS).2.relations = g.relations) ∧
    (∀ (g : OwnershipGraph) (name : String),
      (g.get_owner_by_nameS name).2.nodes = g.nodes ∧
      (g.get_owner_by_nameS name).2.relations = g.relations) ∧
    (∀ (g : OwnershipGraph) (t : OwnershipNode),
      (g.get_direct_ownersS t).2.nodes = g.nodes ∧
      (g.get_direct_ownersS t).2.relations = g.relations) ∧
    (∀ (g : OwnershipGraph) (s : OwnershipNode),
      (g.get_direct_ownedS s).2.nodes = g.nodes ∧
      (g.get_direct_ownedS s).2.relations = g.relations) ∧
    (∀ (g : OwnershipGraph) (t : OwnershipNode),
      (g.get_all_ownersS t).2.nodes = g.nodes ∧
      (g.get_all_ownersS t).2.relations = g.relations) ∧
    (∀ (g : OwnershipGraph) (s t : OwnershipNode),
      (g.get_ownership_pathS s t).2.nodes = g.nodes ∧
      (g.get_ownership_pathS s t).2.relations = g.relations) ∧
    (∀ (g : OwnershipGraph) (s t : OwnershipNode),
      (g.get_real_ownershipS s t).2.nodes = g.nodes ∧
      (g.get_real_ownershipS s t).2.relations = g.relations) := by
  have hgraph : ∀ g : OwnershipGraph,
      OwnershipGraph.get_graphS (g.get_graphS).2 = g.get_graphS ∧
      (g.get_graphS).2.graph = some (g.get_graphS).1 ∧
      (g.get_graphS).2.nodes = g.nodes ∧
      (g.get_graphS).2.relations = g.relations := by
    intro g
    rcases hc : g.graph with _ | G
    · unfold OwnershipGraph.get_graphS
      rw [hc]
      exact ⟨rfl, rfl, rfl, rfl⟩
    · unfold OwnershipGraph.get_graphS
      rw [hc]
      exact ⟨by rw [hc], by rw [hc], rfl, rfl⟩
  refine ⟨hgraph, fun g => ⟨rfl, rfl⟩, fun g name => ⟨rfl, rfl⟩, ?_, ?_, ?_, ?_, ?_⟩
  · intro g t
    exact ⟨(hgraph g).2.2.1, (hgraph g).2.2.2⟩
  · intro g s
    exact ⟨(hgraph g).2.2.1, (hgraph g).2.2.2⟩
  · intro g t
    exact ⟨(hgraph g).2.2.1, (hgraph g).2.2.2⟩
  · intro g s t
    exact ⟨(hgraph g).2.2.1, (hgraph g).2.2.2⟩
  · intro g s t
    exact ⟨(hgraph g).2.2.1, (hgraph g).2.2.2⟩

/-- C10 counterexample: in a graph where a later record reuses entity
id 2 with the display name "Company B2", exactly one relation has
target_depth 0, yet get_focus_company returns the relation's embedded
target node (name "Company B") while get_focus_company_via_graph
returns the overwritten node-registry entry (name "Company B2"): the
two implementations disagree. -/
theorem claim_C10_counterexample :
    ((overwriteGraph.relations.map Prod.snd).filter
      (fun r => r.target_depth = 0)).length = 1 ∧
    overwriteGraph.get_focus_company = some ⟨"2", "Company B"⟩ ∧
    overwriteGraph.get_focus_company_via_graph = some ⟨"2", "Company B2"⟩ ∧
    overwriteGraph.get_focus_company_via_graph ≠ overwriteGraph.get_focus_company :=
  ⟨by with_unfolding_all rfl, by with_unfolding_all rfl, by with_unfolding_all rfl,
   of_decide_eq_true (by with_unfolding_all rfl)⟩

/-- C10 (amended): the two focus-resolution implementations agree when,
in addition to the unique depth-0 relation, the graph is freshly built,
the registry has at most one relation per ordered (source, target) pair
(so no edge attributes are overwritten), and the node registry still
maps the focus target's id to that relation's embedded target node
(consistent naming).  Without those extra conditions the claim fails,
see claim_C10_counterexample. -/
theorem claim_C10_amended (g : OwnershipGraph) (k₀ : String)
    (r₀ : OwnershipRelation)
    (hclean : g.graph = none)
    (hpairs : (g.relations.map
      (fun kr => (kr.2.source.id, kr.2.target.id))).Nodup)
    (hmem : (k₀, r₀) ∈ g.relations)
    (hd0 : r₀.target_depth = 0)
    (huniq : ∀ kr ∈ g.relations,
      (kr : String × OwnershipRelation).2.target_depth = 0 → kr.2 = r₀)
    (hnode : g.nodes.lookup r₀.target.id = some r₀.target) :
    g.get_focus_company_via_graph = g.get_focus_company ∧
    g.get_focus_company = some r₀.target := by
  have hfocus : g.get_focus_company = some r₀.target := by
    unfold OwnershipGraph.get_focus_company
    rcases hf : (g.relations.map Prod.snd).find? (fun r => r.target_depth = 0)
      with _ | r'
    · exfalso
      have hr₀mem : r₀ ∈ g.relations.map Prod.snd :=
        List.mem_map.mpr ⟨(k₀, r₀), hmem, rfl⟩
      have := List.find?_eq_none.mp hf r₀ hr₀mem
      exact this (by simpa using hd0)
    · have hmem' := List.mem_of_find?_eq_some hf
      have hp := List.find?_some hf
      obtain ⟨kr, hkr, hkr2⟩ := List.mem_map.mp hmem'
      have : r' = r₀ := by
        rw [← hkr2]
        exact huniq kr hkr (by rw [hkr2]; simpa using hp)
      rw [hf, this]
      rfl
  have hGdef : g.derivedGraph = buildGraph g.nodes g.relations := by
    unfold OwnershipGraph.derivedGraph
    rw [hclean]
  have hG : g.derivedGraph.edges = g.relations.map
      (fun kr => (kr.2.source.id, kr.2.target.id, edgeDataOf kr.2)) := by
    rw [hGdef]
    exact buildGraph_edges g.nodes g.relations hpairs
  have hwf : g.derivedGraph.WF := derivedGraph_WF hclean
  have hedge : (r₀.source.id, r₀.target.id, edgeDataOf r₀) ∈ g.derivedGraph.edges := by
    rw [hG]
    exact List.mem_map.mpr ⟨(k₀, r₀), hmem, rfl⟩
  have hvert : r₀.target.id ∈ g.derivedGraph.verts := (hwf _ hedge).2
  have hvia : g.get_focus_company_via_graph = some r₀.target := by
    unfold OwnershipGraph.get_focus_company_via_graph
    refine findSome?_unique _ r₀.target.id r₀.target _ hvert ?_ ?_
    · show (if (g.derivedGraph.inEdges r₀.target.id).any
          (fun e => e.2.2.target_depth = 0) then
            g.nodes.lookup r₀.target.id
          else none) = some r₀.target
      rw [if_pos, hnode]
      refine List.any_eq_true.mpr ⟨(r₀.source.id, r₀.target.id, edgeDataOf r₀), ?_, ?_⟩
      · unfold DiGraph.inEdges
        rw [List.mem_filter]
        exact ⟨hedge, by simp⟩
      · simpa [edgeDataOf] using hd0
    · intro v _ hv
      show (if (g.derivedGraph.inEdges v).any
          (fun e => e.2.2.target_depth = 0) then
            g.nodes.lookup v
          else none) = none
      rw [if_neg]
      intro hany
      obtain ⟨e, hemem, hetd⟩ := List.any_eq_true.mp hany
      have he' : e ∈ g.derivedGraph.edges ∧ e.2.1 = v := by
        unfold DiGraph.inEdges at hemem
        have := List.mem_filter.mp hemem
        exact ⟨this.1, by simpa using this.2⟩
      obtain ⟨kr, hkr, hkre⟩ := List.mem_map.mp (hG ▸ he'.1)
      have hkr0 : kr.2.target_depth = 0 := by
        have : e.2.2.target_depth = kr.2.target_depth := by
          rw [← hkre]
          rfl
        rw [this] at hetd
        simpa using hetd
      have : kr.2 = r₀ := huniq kr hkr hkr0
      apply hv
      rw [← he'.2, ← hkre, this]
  rw [hvia, hfocus]
  exact ⟨rfl, rfl⟩

/-- Witness for claim_C10_amended: a clean two-relation graph with
consistent names where A owns the focus company B and B owns C; both
implementations return B. -/
theorem claim_C10_witness :
    consistentGraph.get_focus_company_via_graph =
      consistentGraph.get_focus_company ∧
    consistentGraph.get_focus_company =
      some (⟨"1_2", nodeA, nodeB, ⟨100, 100, 100⟩, true, 1, 0⟩ :
        OwnershipRelation).target :=
  claim_C10_amended consistentGraph "1_2"
    ⟨"1_2", nodeA, nodeB, ⟨100, 100, 100⟩, true, 1, 0⟩
    (by with_unfolding_all rfl)
    (of_decide_eq_true (by with_unfolding_all rfl))
    (of_decide_eq_true (by with_unfolding_all rfl))
    rfl
    (of_decide_eq_true (by with_unfolding_all rfl))
    (by with_unfolding_all rfl)
